import Mathlib

-- Verification of the universal compaction picker of a TerarkDB-style LSM storage
-- engine, shallowly embedded from db/compaction_picker_universal.cc.  Machine
-- integers (uint32_t / uint64_t / size_t) are modelled as natural numbers with
-- explicit reduction modulo 2^32 / 2^64 at the operations where C wrap-around is
-- observable.  IEEE doubles are modelled as exact rationals; where a claim demands
-- independence from floating-point outcomes the float-derived branch decisions are
-- abstracted into boolean oracle parameters.

namespace UCP

/-- 2^32, the modulus of C `unsigned int` arithmetic. -/
def W32 : ℕ := 2 ^ 32

/-- 2^64, the modulus of C `uint64_t` / `size_t` arithmetic. -/
def W64 : ℕ := 2 ^ 64

/-! ### Path allocator: `UniversalCompactionPicker::GetPathId` -/

/-- The value of the C expression `100 - size_ratio` where `size_ratio` is an
`unsigned int`: subtraction wraps modulo 2^32. -/
def ratioComplement (sizeRatio : ℕ) : ℕ :=
  (100 + (W32 - sizeRatio % W32)) % W32

/-- The loop of `GetPathId` (compaction_picker_universal.cc:686-693): walk the targets
of `cf_paths[0 .. n-2]`, accumulating `accumulated_size`; return the first index `p`
whose path satisfies `target_size > file_size` and
`accumulated_size + (target_size - file_size) > future_size`, all in `uint64_t`
arithmetic; otherwise fall out of the loop with `p = n-1`. -/
def getPathIdGo (fileSize future : ℕ) : List ℕ → ℕ → ℕ → ℕ
  | [], _, p => p
  | t :: rest, acc, p =>
    if fileSize < t % W64 ∧ future < (acc + (t % W64 - fileSize)) % W64 then p
    else getPathIdGo fileSize future rest ((acc + t % W64) % W64) (p + 1)

/-- `UniversalCompactionPicker::GetPathId` (compaction_picker_universal.cc:663-695).
`future_size = file_size * (100 - size_ratio) / 100` with the subtraction in
`unsigned int` arithmetic and the product in `uint64_t` arithmetic. -/
def getPathId (cfPaths : List ℕ) (sizeRatio fileSize : ℕ) : ℕ :=
  let f := fileSize % W64
  let future := f * ratioComplement sizeRatio % W64 / 100
  getPathIdGo f future cfPaths.dropLast 0 0

/-- The walk of the path allocator as the spec (§4.12 and claim C6) describes it,
with exact (unbounded) natural-number arithmetic. -/
def claimPathGo (fileSize future : ℕ) : List ℕ → ℕ → ℕ → ℕ
  | [], _, p => p
  | t :: rest, acc, p =>
    if fileSize < t ∧ future < acc + (t - fileSize) then p
    else claimPathGo fileSize future rest (acc + t) (p + 1)

/-- The path allocator as described by the spec: `future = f·(100 − size_ratio)/100`,
walk paths `p = 0 .. n−2` accumulating `acc`, return the first `p` with
`target_p > f` and `acc + (target_p − f) > future`, else `n−1`. -/
def claimPathId (cfPaths : List ℕ) (sizeRatio fileSize : ℕ) : ℕ :=
  claimPathGo fileSize (fileSize * (100 - sizeRatio) / 100) cfPaths.dropLast 0 0

lemma ratioComplement_of_le (sizeRatio : ℕ) (h : sizeRatio ≤ 100) :
    ratioComplement sizeRatio = 100 - sizeRatio := by
  have hW : W32 = 4294967296 := by norm_num [W32]
  have h32 : sizeRatio % W32 = sizeRatio := Nat.mod_eq_of_lt (by omega)
  unfold ratioComplement
  rw [h32]
  have h1 : 100 + (W32 - sizeRatio) = W32 + (100 - sizeRatio) := by omega
  rw [h1, Nat.add_mod_left]
  exact Nat.mod_eq_of_lt (by omega)

lemma getPathIdGo_eq_claim (fileSize future : ℕ) (ts : List ℕ) (acc p : ℕ)
    (hacc : acc + ts.sum < W64) :
    getPathIdGo fileSize future ts acc p = claimPathGo fileSize future ts acc p := by
  induction ts generalizing acc p with
  | nil => rfl
  | cons t rest ih =>
    have hsum : t + rest.sum = (t :: rest).sum := by simp
    have ht : t < W64 := by
      have : t ≤ (t :: rest).sum := by simp
      omega
    have htm : t % W64 = t := Nat.mod_eq_of_lt ht
    have hc : (acc + (t - fileSize)) % W64 = acc + (t - fileSize) := by
      apply Nat.mod_eq_of_lt
      have h1 : t - fileSize ≤ t := Nat.sub_le _ _
      have h2 : t ≤ (t :: rest).sum := by simp
      omega
    have hacc' : (acc + t) % W64 = acc + t := by
      apply Nat.mod_eq_of_lt
      have : t ≤ (t :: rest).sum := by simp
      omega
    show (if fileSize < t % W64 ∧ future < (acc + (t % W64 - fileSize)) % W64 then p
      else getPathIdGo fileSize future rest ((acc + t % W64) % W64) (p + 1)) = _
    rw [htm, hc, hacc']
    by_cases hcond : fileSize < t ∧ future < acc + (t - fileSize)
    · rw [if_pos hcond]
      show _ = (if fileSize < t ∧ future < acc + (t - fileSize) then p else _)
      rw [if_pos hcond]
    · rw [if_neg hcond]
      show _ = (if fileSize < t ∧ future < acc + (t - fileSize) then p else
        claimPathGo fileSize future rest (acc + t) (p + 1))
      rw [if_neg hcond]
      apply ih
      have : (t :: rest).sum = t + rest.sum := by simp
      omega

lemma claimPathGo_le_self (fileSize future : ℕ) (ts : List ℕ) (acc p : ℕ) :
    p ≤ claimPathGo fileSize future ts acc p := by
  induction ts generalizing acc p with
  | nil => exact le_refl _
  | cons t rest ih =>
    show p ≤ (if _ then p else _)
    split
    · exact le_refl _
    · exact le_trans (Nat.le_succ p) (ih (acc + t) (p + 1))

lemma claimPathGo_mono (f₁ f₂ fut₁ fut₂ : ℕ)
    (h : ∀ acc t, f₂ < t → fut₂ < acc + (t - f₂) → f₁ < t ∧ fut₁ < acc + (t - f₁)) :
    ∀ ts acc p, claimPathGo f₁ fut₁ ts acc p ≤ claimPathGo f₂ fut₂ ts acc p := by
  intro ts
  induction ts with
  | nil => intro acc p; exact le_refl _
  | cons t rest ih =>
    intro acc p
    show (if _ then p else _) ≤ (if _ then p else _)
    by_cases h2 : f₂ < t ∧ fut₂ < acc + (t - f₂)
    · have h1 := h acc t h2.1 h2.2
      rw [if_pos h1, if_pos h2]
    · rw [if_neg h2]
      by_cases h1 : f₁ < t ∧ fut₁ < acc + (t - f₁)
      · rw [if_pos h1]
        exact le_trans (Nat.le_succ p) (claimPathGo_le_self f₂ fut₂ rest (acc + t) (p + 1))
      · rw [if_neg h1]
        exact ih (acc + t) (p + 1)

lemma dropLast_sum_le (l : List ℕ) : l.dropLast.sum ≤ l.sum := by
  induction l with
  | nil => exact le_refl _
  | cons a l ih =>
    cases l with
    | nil => simp
    | cons b l' =>
      rw [List.dropLast_cons₂, List.sum_cons, List.sum_cons]
      exact Nat.add_le_add_left ih a

lemma getPathId_exact (cfPaths : List ℕ) (sizeRatio fileSize : ℕ)
    (hr : sizeRatio ≤ 100) (hsum : cfPaths.sum < W64)
    (hfut : fileSize * (100 - sizeRatio) < W64) (hf : fileSize < W64) :
    getPathId cfPaths sizeRatio fileSize = claimPathId cfPaths sizeRatio fileSize := by
  unfold getPathId claimPathId
  simp only [ratioComplement_of_le sizeRatio hr, Nat.mod_eq_of_lt hf, Nat.mod_eq_of_lt hfut]
  exact getPathIdGo_eq_claim fileSize (fileSize * (100 - sizeRatio) / 100)
    cfPaths.dropLast 0 0 (by have := dropLast_sum_le cfPaths; omega)

/-- C6: `GetPathId`, given ordered `cf_paths` with target sizes and an estimated output
size `f`, computes `future = f*(100 - size_ratio)/100`, walks paths `p = 0 .. n-2`
accumulating `acc` (the sum of preceding targets), and returns the first `p` with
`target_p > f` and `acc + (target_p - f) > future`, returning `n-1` when no such `p`
exists; with `cf_paths` targets `[100, 1000]` and `size_ratio = 10` it returns 0 for
estimated size 50 and 1 for estimated size 80.  (The general clause is proved under the
exact-arithmetic reading of the spec formulas, i.e. no `uint64_t` overflow.) -/
theorem c6_get_path_id (cfPaths : List ℕ) (sizeRatio fileSize : ℕ)
    (hr : sizeRatio ≤ 100) (hsum : cfPaths.sum < W64)
    (hfut : fileSize * (100 - sizeRatio) < W64) (hf : fileSize < W64) :
    getPathId cfPaths sizeRatio fileSize = claimPathId cfPaths sizeRatio fileSize ∧
      getPathId [100, 1000] 10 50 = 0 ∧ getPathId [100, 1000] 10 80 = 1 :=
  ⟨getPathId_exact cfPaths sizeRatio fileSize hr hsum hfut hf, by decide, by decide⟩

theorem c6_get_path_id_witness :
    getPathId [100, 1000] 10 50 = claimPathId [100, 1000] 10 50 ∧
      getPathId [100, 1000] 10 50 = 0 ∧ getPathId [100, 1000] 10 80 = 1 :=
  c6_get_path_id [100, 1000] 10 50 (by norm_num) (by norm_num [W64])
    (by norm_num [W64]) (by norm_num [W64])

/-- C7 counterexample: with `cf_paths` targets
`[2*10^17, 2^64 - 10^17, 1]` and `size_ratio = 0`, doubling the estimated file size
`10^17` moves the selected path from 2 down to 1: the `uint64_t` accumulation
`accumulated_size + (target_size - file_size)` wraps to 0 at path 1 for the smaller
size but not for the doubled size, so `GetPathId` is not monotone in the file size. -/
theorem c7_counterexample :
    getPathId [200000000000000000, 18346744073709551616, 1] 0 (2 * 100000000000000000) <
      getPathId [200000000000000000, 18346744073709551616, 1] 0 100000000000000000 := by
  decide

/-- C7 amended: doubling the estimated size never selects an earlier path, provided
`size_ratio ≤ 100` and the involved 64-bit arithmetic does not overflow (the doubled
future size `2f*(100-size_ratio)` stays below 2^64 and so does the total of the path
targets). -/
theorem c7_amended (cfPaths : List ℕ) (sizeRatio fileSize : ℕ)
    (hr : sizeRatio ≤ 100) (hsum : cfPaths.sum < W64)
    (hfut : 2 * fileSize * (100 - sizeRatio) < W64) (hf : 2 * fileSize < W64) :
    getPathId cfPaths sizeRatio fileSize ≤ getPathId cfPaths sizeRatio (2 * fileSize) := by
  have hm : fileSize * (100 - sizeRatio) ≤ 2 * fileSize * (100 - sizeRatio) :=
    Nat.mul_le_mul_right (100 - sizeRatio) (by omega)
  rw [getPathId_exact cfPaths sizeRatio fileSize hr hsum (by omega) (by omega),
    getPathId_exact cfPaths sizeRatio (2 * fileSize) hr hsum hfut hf]
  unfold claimPathId
  apply claimPathGo_mono
  intro acc t h2f hfu
  have hdiv : fileSize * (100 - sizeRatio) / 100 ≤ fileSize := by
    have h1 : fileSize * (100 - sizeRatio) ≤ fileSize * 100 :=
      Nat.mul_le_mul_left fileSize (by omega)
    have h2 : fileSize * (100 - sizeRatio) / 100 ≤ fileSize * 100 / 100 :=
      Nat.div_le_div_right h1
    rwa [Nat.mul_div_cancel fileSize (by norm_num)] at h2
  constructor
  · omega
  · omega

theorem c7_amended_witness :
    getPathId [100, 1000] 10 50 ≤ getPathId [100, 1000] 10 (2 * 50) :=
  c7_amended [100, 1000] 10 50 (by norm_num) (by norm_num [W64]) (by norm_num [W64])
    (by norm_num [W64])

/-! ### Data model: files, version snapshot, options, sorted runs, plans -/

/-- `SstPurpose` (`kEssenceSst = 0`, `kMapSst`, `kLinkSst`). -/
inductive SstPurpose
  | essence
  | mapSst
  | linkSst
deriving DecidableEq

/-- `FileMetaData`: the fields of file metadata the picker consults.  Internal keys
are modelled by an arbitrary linearly ordered type `K` (the internal-key comparator
becomes the order on `K`); the concrete instantiations below use `K = ℤ`. -/
structure FileMeta (K : Type) where
  fileNumber : ℕ
  pathId : ℕ
  fileSize : ℕ
  compensatedFileSize : ℕ
  smallest : K
  largest : K
  smallestSeqno : ℕ
  largestSeqno : ℕ
  beingCompacted : Bool
  markedForCompaction : Bool
  purpose : SstPurpose
  sstDepend : List ℕ
deriving DecidableEq

/-- `VersionStorageInfo`: the read-only version snapshot.  `levels` is the per-level
file list (`levels.length` = `num_levels()`); `dependFiles` is the `depend_files()`
map as an association list; `spaceAmpLevel` records `has_space_amplification(level)`
per level. -/
structure VersionStorage where
  levels : List (List (FileMeta ℤ))
  dependFiles : List (ℕ × FileMeta ℤ)
  compactionScoreL0 : ℚ
  spaceAmpLevel : List Bool
deriving DecidableEq

def VersionStorage.numLevels (v : VersionStorage) : ℕ := v.levels.length

def VersionStorage.levelFiles (v : VersionStorage) (l : ℕ) : List (FileMeta ℤ) :=
  v.levels.getD l []

/-- `has_space_amplification(level)`. -/
def VersionStorage.hasSpaceAmpAt (v : VersionStorage) (l : ℕ) : Bool :=
  v.spaceAmpLevel.getD l false

/-- `has_space_amplification()`: some level has space amplification. -/
def VersionStorage.hasSpaceAmp (v : VersionStorage) : Bool :=
  v.spaceAmpLevel.any id

/-- `!vstorage->FilesMarkedForCompaction().empty()`: the version keeps a precomputed
list of marked files; the picker only consults its emptiness, which holds exactly when
some file of some level is marked. -/
def VersionStorage.anyMarkedForCompaction (v : VersionStorage) : Bool :=
  v.levels.any (fun fs => fs.any (·.markedForCompaction))

/-- Lookup in the `depend_files()` map. -/
def dependFind (depend : List (ℕ × FileMeta ℤ)) (fn : ℕ) : Option (FileMeta ℤ) :=
  (depend.find? (fun p => p.1 == fn)).map (·.2)

/-- `GetFilesSize` (compaction_picker_universal.cc:220-240): recursive size of a file,
expanding map/link SSTs (`sst_purpose != 0`) through `depend_files`; a file number
missing from the map contributes 0 (the source logs and returns 0).  The source
recurses with no cycle check (the spec notes acyclicity is assumed); the embedding
bounds the recursion with explicit fuel, which never runs out on acyclic metadata of
dependency depth below the fuel. -/
def getFilesSize (depend : List (ℕ × FileMeta ℤ)) : ℕ → FileMeta ℤ → ℕ
  | 0, _ => 0
  | fuel + 1, f =>
    f.fileSize +
      (if f.purpose = SstPurpose.essence then 0
       else (f.sstDepend.map (fun fn =>
         match dependFind depend fn with
         | none => 0
         | some g => getFilesSize depend fuel g)).sum)

/-- `GetFilesSize(f, -1, vstorage)` with the canonical fuel: one more than the size of
the depend map bounds the depth of any acyclic dependency chain. -/
def fileTotalSize (v : VersionStorage) (f : FileMeta ℤ) : ℕ :=
  getFilesSize v.dependFiles (v.dependFiles.length + 1) f

/-- `kCompactionStopStyleTotalSize` / `kCompactionStopStyleSimilarSize`. -/
inductive CompactionStopStyle
  | totalSize
  | similarSize
deriving DecidableEq

/-- `CompactionOptionsUniversal`, restricted to the fields the picker reads. -/
structure UniversalOptions where
  sizeRatio : ℕ
  minMergeWidth : ℕ
  maxMergeWidth : ℕ
  maxSizeAmplificationPercent : ℕ
  compressionSizePercent : ℤ
  stopStyle : CompactionStopStyle
  allowTrivialMove : Bool
deriving DecidableEq

/-- The immutable + mutable column-family options the picker reads. -/
structure Options where
  level0FileNumCompactionTrigger : ℕ
  universal : UniversalOptions
  enableLazyCompaction : Bool
  allowIngestBehind : Bool
  maxSubcompactions : ℕ
  maxCompactionBytes : ℕ
  writeBufferSize : ℕ
  cfPaths : List ℕ
deriving DecidableEq

/-- `UniversalCompactionPicker::SortedRun`. -/
structure SortedRun where
  level : ℕ
  file : Option (FileMeta ℤ)
  size : ℕ
  compensatedFileSize : ℕ
  beingCompacted : Bool
  waitReduce : Bool
deriving DecidableEq

instance : Inhabited SortedRun := ⟨⟨0, none, 0, 0, false, false⟩⟩

/-- `UniversalCompactionPicker::CalculateSortedRuns` (lines 242-283): one run per L0
file (newest first), then one aggregate run per non-empty lower level.  With
`allow_trivial_move` the aggregate `being_compacted` flag is the disjunction over the
level's files; without it the first file's flag is taken (the debug build asserts the
flag is uniform across the level). -/
def calculateSortedRuns (v : VersionStorage) (opts : Options) : List SortedRun :=
  (v.levelFiles 0).map (fun f =>
    ⟨0, some f, fileTotalSize v f, f.compensatedFileSize, f.beingCompacted, false⟩) ++
  (List.range v.numLevels).filterMap (fun level =>
    if level = 0 then none
    else
      let fs := v.levelFiles level
      let totalCompensated : ℕ := (fs.map (·.compensatedFileSize)).sum
      let totalSize : ℕ := (fs.map (fileTotalSize v)).sum
      let bc : Bool :=
        if opts.universal.allowTrivialMove then fs.any (·.beingCompacted)
        else ((fs.head?).map (·.beingCompacted)).getD false
      if 0 < totalCompensated then some ⟨level, none, totalSize, totalCompensated, bc, false⟩
      else none)

/-- `CompactionReason` values the picker assigns. -/
inductive CompactionReason
  | universalSizeAmplification
  | universalSizeRatio
  | universalSortedRunNum
  | filesMarkedForCompaction
  | trivialMoveLevel
  | compositeAmplification
  | unknown
deriving DecidableEq

/-- `RangeStorage`: a sub-compaction user-key range. -/
structure RangeStorage where
  start : ℤ
  limit : ℤ
  includeStart : Bool
  includeLimit : Bool
deriving DecidableEq

/-- The compaction plan (`CompactionParams` / the resulting `Compaction`), restricted
to the fields some claim consults.  `rangedCompaction` models `partial_compaction`
(renamed to satisfy naming restrictions of this development).  `target_file_size`,
`compression` and `compression_opts` are computed by helpers outside the sources
(`MaxFileSizeForLevel`, `GetCompressionType`, `GetCompressionOptions`) and carry no
information any claim consults; we do record the `enable_compression` flag the picker
passes to them. -/
structure Plan where
  inputs : List (ℕ × List (FileMeta ℤ))
  outputLevel : ℕ
  outputPathId : ℕ
  score : ℚ
  purpose : SstPurpose
  maxSubcompactions : ℕ
  manualCompaction : Bool
  rangedCompaction : Bool
  inputRange : List RangeStorage
  reason : CompactionReason
  enableCompression : Bool
  isTrivialMove : Bool
deriving DecidableEq

/-- `c->start_level()`: the level of the first input vector. -/
def Plan.startLevel (c : Plan) : ℕ := ((c.inputs.head?).map (·.1)).getD 0

/-- Per-column-family picker state: `compactions_in_progress_` and
`level0_compactions_in_progress_`. -/
structure PickerState where
  inProgress : List Plan
  level0InProgress : List Plan
deriving DecidableEq

/-- Modelled from the spec: `CompactionPicker::AreFilesInCompaction` is defined in
db/compaction_picker.cc, which is not among the sources; per the spec (§3, §8 P1) it
reports whether any of the given files is currently being compacted. -/
def areFilesInCompaction {K : Type} (files : List (FileMeta K)) : Bool :=
  files.any (·.beingCompacted)

/-- Modelled from the spec: `CompactionPicker::RegisterCompaction` is defined in
db/compaction_picker.cc, which is not among the sources; per §3 (PickerState) an
accepted plan "transitions to registered", entering `compactions_in_progress_` and,
when it touches level 0 (start level or output level 0), also
`level0_compactions_in_progress_`. -/
def registerCompaction (st : PickerState) (c : Plan) : PickerState :=
  { inProgress := c :: st.inProgress
    level0InProgress :=
      if c.startLevel = 0 ∨ c.outputLevel = 0 then c :: st.level0InProgress
      else st.level0InProgress }

/-! ### Shared plan-construction helpers -/

/-- Append files to the file list of the `i`-th input vector (no-op past the end). -/
def appendFilesAt : List (ℕ × List (FileMeta ℤ)) → ℕ → List (FileMeta ℤ) →
    List (ℕ × List (FileMeta ℤ))
  | [], _, _ => []
  | (l, gs) :: rest, 0, fs => (l, gs ++ fs) :: rest
  | e :: rest, i + 1, fs => e :: appendFilesAt rest i fs

/-- The empty input vectors `inputs[i].level = start_level + i` for `i < count`. -/
def levelInputsTemplate (startLevel count : ℕ) : List (ℕ × List (FileMeta ℤ)) :=
  (List.range count).map (fun i => (startLevel + i, []))

/-- One step of the input-gathering loops of SizeAmp and the legacy RatioReduce: an
L0 run contributes its single file to `inputs[0]`, a lower-level run contributes the
whole level to `inputs[level - start_level]`.  (A null L0 file pointer cannot occur
for runs built by `CalculateSortedRuns`; the embedding skips it.) -/
def addSortedRunFiles (v : VersionStorage) (startLevel : ℕ)
    (inputs : List (ℕ × List (FileMeta ℤ))) (sr : SortedRun) :
    List (ℕ × List (FileMeta ℤ)) :=
  if sr.level = 0 then
    match sr.file with
    | some f => appendFilesAt inputs 0 [f]
    | none => inputs
  else appendFilesAt inputs (sr.level - startLevel) (v.levelFiles sr.level)

/-! ### Strategy: SizeAmp (`PickCompactionToReduceSizeAmp`, lines 991-1128) -/

/-- Plan construction of the SizeAmp strategy (lines 1074-1127): all runs from
`start_index` to the bottom; output at the bottommost level (minus one under
`allow_ingest_behind`); reason `kUniversalSizeAmplification`. -/
def mkSizeAmpPlan (v : VersionStorage) (opts : Options) (score : ℚ)
    (sortedRuns : List SortedRun) (startIndex : ℕ) : Plan :=
  let picked := sortedRuns.drop startIndex
  let estimatedTotalSize := (picked.map (·.size)).sum
  let pathId := getPathId opts.cfPaths opts.universal.sizeRatio estimatedTotalSize
  let startLevel := (sortedRuns.getD startIndex default).level
  let inputs := picked.foldl (addSortedRunFiles v startLevel)
    (levelInputsTemplate startLevel v.numLevels)
  let outputLevel := if opts.allowIngestBehind then v.numLevels - 1 - 1 else v.numLevels - 1
  { inputs := inputs
    outputLevel := outputLevel
    outputPathId := pathId
    score := score
    purpose := SstPurpose.essence
    maxSubcompactions := 0
    manualCompaction := false
    rangedCompaction := false
    inputRange := []
    reason := CompactionReason.universalSizeAmplification
    enableCompression := true
    isTrivialMove := false }

/-- `UniversalCompactionPicker::PickCompactionToReduceSizeAmp` (lines 991-1128).
Decline when the bottommost run is being compacted; skip the being-compacted head
runs (the skip loop lands on the first non-compacted run among indices `0 .. n-2`,
declining when there is none); decline when any run from there up to `n-2` is being
compacted; `candidate_size` sums the compensated sizes of those runs; trigger on
`candidate_size * 100 >= ratio * earliest_file_size` in `uint64_t` arithmetic. -/
def pickCompactionToReduceSizeAmp (v : VersionStorage) (opts : Options) (score : ℚ)
    (sortedRuns : List SortedRun) : Option Plan :=
  let ratio := opts.universal.maxSizeAmplificationPercent
  match sortedRuns.getLast? with
  | none => none
  | some lastRun =>
    if lastRun.beingCompacted then none
    else
      let front := sortedRuns.take (sortedRuns.length - 1)
      let middle := front.dropWhile (·.beingCompacted)
      if middle = [] then none
      else if middle.any (·.beingCompacted) then none
      else if middle.length = 0 then none
      else
        let candidateSize := ((middle.map (·.compensatedFileSize)).sum) % W64
        if candidateSize * 100 % W64 < ratio % W64 * (lastRun.size % W64) % W64 then none
        else some (mkSizeAmpPlan v opts score sortedRuns (front.length - middle.length))

/-- The SizeAmp trigger exactly as claim C2 states it: `candidate_size` is the sum of
the compensated sizes of ALL runs except the bottommost, and a plan is returned iff
the bottommost run is not being compacted, no intermediate (non-bottommost) run is
being compacted, and `candidate_size * 100 ≥ ratio * earliest_file_size`. -/
def claimSizeAmpTrigger (ratio : ℕ) (sortedRuns : List SortedRun) : Bool :=
  match sortedRuns.getLast? with
  | none => false
  | some lastRun =>
    let front := sortedRuns.take (sortedRuns.length - 1)
    !lastRun.beingCompacted && front.all (fun sr => !sr.beingCompacted) &&
      decide (ratio * lastRun.size ≤ ((front.map (·.compensatedFileSize)).sum) * 100)

/-- The SizeAmp trigger as the code actually behaves: the being-compacted head runs
are skipped (not declined on, and excluded from `candidate_size`), and
`candidate_size` only sums the compensated sizes from the first non-compacted run up
to the second-to-last run. -/
def amendedSizeAmpTrigger (ratio : ℕ) (runs : List SortedRun) : Prop :=
  ∃ lastRun, runs.getLast? = some lastRun ∧ lastRun.beingCompacted = false ∧
    (runs.take (runs.length - 1)).dropWhile (·.beingCompacted) ≠ [] ∧
    ((runs.take (runs.length - 1)).dropWhile (·.beingCompacted)).all
      (fun sr => !sr.beingCompacted) = true ∧
    ratio * lastRun.size ≤
      ((((runs.take (runs.length - 1)).dropWhile (·.beingCompacted)).map
        (·.compensatedFileSize)).sum) * 100

lemma sublist_sum_le {l₁ l₂ : List ℕ} (h : l₁.Sublist l₂) : l₁.sum ≤ l₂.sum := by
  induction h with
  | slnil => exact le_refl 0
  | cons a h ih => simpa using le_trans ih (Nat.le_add_left _ _)
  | cons₂ a h ih => simpa using ih

/-- C2 amended: with `s` the index of the first run among `0 .. n-2` that is not being
compacted (the skip loop; decline when none exists or the bottommost run is being
compacted), `PickCompactionToReduceSizeAmp` returns a plan iff no run with index in
`[s, n-2]` is being compacted and the sum of THEIR compensated sizes (not of all
non-bottommost runs) satisfies `candidate_size * 100 ≥ ratio * earliest_file_size`;
runs before `s` are skipped and excluded from `candidate_size`.  Stated under
hypotheses making the `uint64_t` arithmetic overflow-free. -/
theorem c2_amended (v : VersionStorage) (opts : Options) (score : ℚ)
    (runs : List SortedRun)
    (hov1 : ((runs.map (·.compensatedFileSize)).sum) * 100 < W64)
    (hov2 : opts.universal.maxSizeAmplificationPercent *
      ((runs.getLast?.map (·.size)).getD 0) < W64) :
    (pickCompactionToReduceSizeAmp v opts score runs).isSome = true ↔
      amendedSizeAmpTrigger opts.universal.maxSizeAmplificationPercent runs := by
  set ratio := opts.universal.maxSizeAmplificationPercent with hratio
  cases hl : runs.getLast? with
  | none =>
    simp [pickCompactionToReduceSizeAmp, amendedSizeAmpTrigger, hl]
  | some lastRun =>
    rw [hl] at hov2
    simp only [Option.map_some', Option.getD_some] at hov2
    by_cases hbc : lastRun.beingCompacted
    · simp [pickCompactionToReduceSizeAmp, amendedSizeAmpTrigger, hl, hbc]
    · set middle := (runs.take (runs.length - 1)).dropWhile (·.beingCompacted) with hmid
      by_cases hm : middle = []
      · simp [pickCompactionToReduceSizeAmp, amendedSizeAmpTrigger, hl, hbc, hm, ← hmid]
      · by_cases hany : middle.any (·.beingCompacted)
        · have hnall : ¬ middle.all (fun sr => !sr.beingCompacted) = true := by
            rcases List.any_eq_true.mp hany with ⟨x, hx, hxbc⟩
            intro hall
            have := List.all_eq_true.mp hall x hx
            simp [hxbc] at this
          simp only [pickCompactionToReduceSizeAmp, amendedSizeAmpTrigger, hl, hbc, ← hmid,
            hany, Bool.false_eq_true, if_false, if_neg hm, if_true, Option.isSome_none,
            Option.some.injEq]
          constructor
          · intro h; simp at h
          · rintro ⟨l, hleq, -, -, hall, -⟩
            cases hleq; exact absurd hall hnall
        · have hlen0 : ¬ middle.length = 0 := by
            simpa [List.length_eq_zero] using hm
          have hsub : middle.Sublist runs :=
            (List.dropWhile_sublist _).trans (List.take_sublist _ _)
          have hsum : ((middle.map (·.compensatedFileSize)).sum) ≤
              ((runs.map (·.compensatedFileSize)).sum) :=
            sublist_sum_le (hsub.map (·.compensatedFileSize))
          set s := (middle.map (·.compensatedFileSize)).sum with hs
          have h100 : s * 100 < W64 := lt_of_le_of_lt (Nat.mul_le_mul_right 100 hsum) hov1
          have hsW : s % W64 = s := Nat.mod_eq_of_lt (by omega)
          have h100W : s % W64 * 100 % W64 = s * 100 := by rw [hsW]; exact Nat.mod_eq_of_lt h100
          have hrhs : ratio % W64 * (lastRun.size % W64) % W64 = ratio * lastRun.size := by
            rcases Nat.eq_zero_or_pos ratio with hr0 | hrpos
            · simp [hr0]
            · rcases Nat.eq_zero_or_pos lastRun.size with hz0 | hzpos
              · simp [hz0]
              · have hr : ratio < W64 :=
                  lt_of_le_of_lt (Nat.le_mul_of_pos_right ratio hzpos) hov2
                have hz : lastRun.size < W64 :=
                  lt_of_le_of_lt (Nat.le_mul_of_pos_left lastRun.size hrpos) hov2
                rw [Nat.mod_eq_of_lt hr, Nat.mod_eq_of_lt hz, Nat.mod_eq_of_lt hov2]
          have hallm : middle.all (fun sr => !sr.beingCompacted) = true := by
            rw [List.all_eq_true]
            intro x hx
            by_contra hxbc
            exact hany (List.any_eq_true.mpr ⟨x, hx, by simpa using hxbc⟩)
          simp only [pickCompactionToReduceSizeAmp, amendedSizeAmpTrigger, hl, hbc, ← hmid,
            hany, Bool.false_eq_true, if_false, if_neg hm, if_neg hlen0, ← hs, h100W, hrhs]
          by_cases htr : s * 100 < ratio * lastRun.size
          · simp only [if_pos htr, Option.isSome_none]
            constructor
            · intro h; simp at h
            · rintro ⟨l, hleq, -, -, -, hle⟩
              cases hleq; omega
          · simp only [if_neg htr, Option.isSome_some, true_iff]
            exact ⟨lastRun, rfl, by simpa using hbc, hm, hallm, by omega⟩

def fileC2a : FileMeta ℤ := ⟨1, 0, 5, 5, 0, 1, 0, 0, true, false, SstPurpose.essence, []⟩

def fileC2b : FileMeta ℤ := ⟨2, 0, 1000, 1000, 2, 3, 0, 0, false, false, SstPurpose.essence, []⟩

def fileC2c : FileMeta ℤ := ⟨3, 0, 10, 10, 4, 5, 0, 0, false, false, SstPurpose.essence, []⟩

def vC2 : VersionStorage := ⟨[[fileC2a, fileC2b], [fileC2c]], [], 0, [false, false]⟩

def optsC2 : Options :=
  ⟨4, ⟨1, 2, 10, 100, -1, CompactionStopStyle.totalSize, false⟩, false, false, 0, 0, 1, [100]⟩

def runsC2 : List SortedRun :=
  [⟨0, some fileC2a, 5, 5, true, false⟩, ⟨0, some fileC2b, 1000, 1000, false, false⟩,
    ⟨1, none, 10, 10, false, false⟩]

/-- C2 counterexample: with a being-compacted newest run of compensated size 5, a free
run of compensated size 1000, and a free bottommost run of size 10 under
`max_size_amplification_percent = 100`, the code skips the compacted head run and
returns a plan (1000·100 ≥ 100·10), whereas the claimed iff-condition is false (an
intermediate, non-bottommost run IS being compacted at call time). -/
theorem c2_counterexample :
    (pickCompactionToReduceSizeAmp vC2 optsC2 0 runsC2).isSome = true ∧
      claimSizeAmpTrigger optsC2.universal.maxSizeAmplificationPercent runsC2 = false := by
  constructor
  · rfl
  · rfl

def runsC2w : List SortedRun :=
  [⟨0, some fileC2b, 10, 10, false, false⟩, ⟨1, none, 10, 10, false, false⟩]

theorem c2_amended_witness :
    (pickCompactionToReduceSizeAmp vC2 optsC2 0 runsC2w).isSome = true ↔
      amendedSizeAmpTrigger optsC2.universal.maxSizeAmplificationPercent runsC2w :=
  c2_amended vC2 optsC2 0 runsC2w (by norm_num [runsC2w, W64])
    (by norm_num [runsC2w, optsC2, W64])

/-! ### Strategy: legacy RatioReduce (`PickCompactionToReduceSortedRunsOld`, 782-983) -/

/-- `UINT_MAX`: the unlimited file-count cap. -/
def U32MAX : ℕ := 2 ^ 32 - 1

/-- The window-extension loop (lines 840-874): starting with
`candidate_count = 1` and `candidate_size` = the start run's compensated size, extend
to the next run while the count is below `max_files_to_compact`, the successor is not
being compacted, and `succ.size ≤ candidate_size * (100+ratio)/100` (and, under
SimilarSize, `candidate_size ≤ succ.size * (100+ratio)/100`); under TotalSize
`candidate_size` accumulates compensated sizes, under SimilarSize it becomes the
successor's compensated size.  The double computations are modelled as exact
rationals. -/
def windowExtend (similar : Bool) (ratio maxFiles : ℕ) :
    List SortedRun → ℕ → ℕ → ℕ
  | [], count, _ => count
  | succ :: rest, count, cand =>
    if ¬ count < maxFiles then count
    else if succ.beingCompacted then count
    else if (cand : ℚ) * (100 + ratio) / 100 < (succ.size : ℚ) then count
    else if similar then
      if (succ.size : ℚ) * (100 + ratio) / 100 < (cand : ℚ) then count
      else windowExtend similar ratio maxFiles rest (count + 1) succ.compensatedFileSize
    else windowExtend similar ratio maxFiles rest (count + 1) (cand + succ.compensatedFileSize)

/-- The outer loop (lines 808-891): skip being-compacted runs, window each
non-compacted start, accept the first window with at least `min_merge_width` runs,
otherwise move the start one run forward. -/
def oldFindWindow (similar : Bool) (ratio maxFiles minMerge : ℕ) :
    ℕ → List SortedRun → Option (ℕ × ℕ)
  | _, [] => none
  | idx, sr :: rest =>
    if sr.beingCompacted then oldFindWindow similar ratio maxFiles minMerge (idx + 1) rest
    else
      let count := windowExtend similar ratio maxFiles rest 1 sr.compensatedFileSize
      if minMerge ≤ count then some (idx, count)
      else oldFindWindow similar ratio maxFiles minMerge (idx + 1) rest

/-- The compression heuristic loop (lines 898-915), walking the runs past the window
from the oldest backwards: compression is disabled as soon as the accumulated older
size reaches `compression_size_percent` percent of the total compensated size (signed
`long` arithmetic, modelled as integers). -/
def compressionCutGo (total : ℕ) (pct : ℤ) : List SortedRun → ℕ → Bool
  | [], _ => true
  | sr :: rest, olderAcc =>
    let older := olderAcc + sr.size
    if (total : ℤ) * pct ≤ (older : ℤ) * 100 then false
    else compressionCutGo total pct rest older

/-- `enable_compression` (lines 898-915): the heuristic is skipped entirely when
`compression_size_percent < 0`. -/
def compressionEnabled (runs : List SortedRun) (firstIndexAfter : ℕ) (pct : ℤ) : Bool :=
  if pct < 0 then true
  else compressionCutGo ((runs.map (·.compensatedFileSize)).sum) pct
    ((runs.drop firstIndexAfter).reverse) 0

/-- Output-level selection of both ratio strategies (lines 923-938 and 2008-2023):
bottommost when the window reaches the last run; level 0 when the run right after the
window is an L0 run; otherwise the level just above that run; the bottommost level is
reserved under `allow_ingest_behind`. -/
def ratioOutputLevel (v : VersionStorage) (opts : Options) (runs : List SortedRun)
    (firstIndexAfter : ℕ) : ℕ :=
  let ol :=
    if firstIndexAfter = runs.length then v.numLevels - 1
    else if (runs.getD firstIndexAfter default).level = 0 then 0
    else (runs.getD firstIndexAfter default).level - 1
  if opts.allowIngestBehind ∧ ol = v.numLevels - 1 then ol - 1 else ol

/-- `UniversalCompactionPicker::PickCompactionToReduceSortedRunsOld` (782-983). -/
def pickCompactionToReduceSortedRunsOld (v : VersionStorage) (opts : Options)
    (score : ℚ) (ratio maxNumberOfFilesToCompact : ℕ)
    (sortedRuns : List SortedRun) : Option Plan :=
  let minMerge := max opts.universal.minMergeWidth 2
  let maxFiles := min opts.universal.maxMergeWidth maxNumberOfFilesToCompact
  let similar := decide (opts.universal.stopStyle = CompactionStopStyle.similarSize)
  match oldFindWindow similar ratio maxFiles minMerge 0 sortedRuns with
  | none => none
  | some (startIndex, candidateCount) =>
    if candidateCount ≤ 1 then none
    else
      let firstIndexAfter := startIndex + candidateCount
      let estimatedTotalSize : ℕ := ((sortedRuns.take firstIndexAfter).map (·.size)).sum
      let startLevel := (sortedRuns.getD startIndex default).level
      let picked := (sortedRuns.drop startIndex).take candidateCount
      some { inputs := picked.foldl (addSortedRunFiles v startLevel)
               (levelInputsTemplate startLevel v.numLevels)
             outputLevel := ratioOutputLevel v opts sortedRuns firstIndexAfter
             outputPathId := getPathId opts.cfPaths opts.universal.sizeRatio
               estimatedTotalSize
             score := score
             purpose := SstPurpose.essence
             maxSubcompactions := 0
             manualCompaction := false
             rangedCompaction := false
             inputRange := []
             reason := if maxNumberOfFilesToCompact = U32MAX then
                 CompactionReason.universalSizeRatio
               else CompactionReason.universalSortedRunNum
             enableCompression := compressionEnabled sortedRuns firstIndexAfter
               opts.universal.compressionSizePercent
             isTrivialMove := false }

/-- The window-extension rule exactly as claim C5 states it: extend to `succ` exactly
while `succ.size ≤ C*(100+ratio)/100` (and under SimilarSize also
`C ≤ succ.size*(100+ratio)/100`), where under TotalSize `C` accumulates the total of
the picked runs' sizes and under SimilarSize `C` becomes `succ.size` after each
accepted successor; nothing else stops the window. -/
def claimWindowExtend (similar : Bool) (ratio : ℕ) : List SortedRun → ℕ → ℕ → ℕ
  | [], count, _ => count
  | succ :: rest, count, cand =>
    if (cand : ℚ) * (100 + ratio) / 100 < (succ.size : ℚ) then count
    else if similar then
      if (succ.size : ℚ) * (100 + ratio) / 100 < (cand : ℚ) then count
      else claimWindowExtend similar ratio rest (count + 1) succ.size
    else claimWindowExtend similar ratio rest (count + 1) (cand + succ.size)

/-- C5 counterexample: a window starting at a free run of size 10 followed by a
being-compacted run of size 10, with `ratio = 0` under TotalSize and a file cap of
10: the claimed rule extends the window to 2 runs (10 ≤ 10·(100+0)/100), but the code
stops at the being-compacted successor and keeps the window at 1 run, so the whole
strategy declines (window below `min_merge_width = 2`) where the claimed rule would
accept. -/
theorem c5_counterexample :
    windowExtend false 0 10 [⟨0, none, 10, 10, true, false⟩] 1 10 = 1 ∧
      claimWindowExtend false 0 [⟨0, none, 10, 10, true, false⟩] 1 10 = 2 := by
  constructor
  · norm_num [windowExtend]
  · norm_num [claimWindowExtend]

/-- The accepted-successor test of the amended claim C5: a successor is accepted iff
it is not being compacted, the window budget is not exhausted,
`succ.size ≤ C*(100+ratio)/100`, and under SimilarSize also
`C ≤ succ.size*(100+ratio)/100`. -/
def windowAccepts (similar : Bool) (ratio : ℕ) (cand : ℕ) (succ : SortedRun) : Bool :=
  !succ.beingCompacted &&
    decide ((succ.size : ℚ) ≤ (cand : ℚ) * (100 + ratio) / 100) &&
    (!similar || decide ((cand : ℚ) ≤ (succ.size : ℚ) * (100 + ratio) / 100))

/-- The accumulator update of the amended claim C5: `C` becomes the successor's
COMPENSATED size under SimilarSize, and accumulates COMPENSATED sizes under
TotalSize. -/
def windowNextCand (similar : Bool) (cand : ℕ) (succ : SortedRun) : ℕ :=
  if similar then succ.compensatedFileSize else cand + succ.compensatedFileSize

/-- The length of the maximal accepted prefix of successors within a run budget. -/
def acceptedRunCount (similar : Bool) (ratio : ℕ) : ℕ → ℕ → List SortedRun → ℕ
  | _, _, [] => 0
  | 0, _, _ => 0
  | budget + 1, cand, succ :: rest =>
    if windowAccepts similar ratio cand succ then
      acceptedRunCount similar ratio budget (windowNextCand similar cand succ) rest + 1
    else 0

/-- C5 amended: the window loop extends exactly while the successor is not being
compacted, the window holds fewer than `min(max_merge_width,
max_number_of_files_to_compact)` runs, and `succ.size ≤ C*(100+ratio)/100` (under
SimilarSize also `C ≤ succ.size*(100+ratio)/100`), where `C` starts as the start
run's compensated size, accumulates compensated sizes under TotalSize, and becomes
the successor's compensated size under SimilarSize: the window size equals the start
run plus the maximal accepted prefix of successors. -/
theorem c5_amended (similar : Bool) (ratio maxFiles : ℕ) (rest : List SortedRun)
    (count cand : ℕ) (hc : count ≤ maxFiles) :
    windowExtend similar ratio maxFiles rest count cand =
      count + acceptedRunCount similar ratio (maxFiles - count) cand rest := by
  induction rest generalizing count cand with
  | nil => simp [windowExtend, acceptedRunCount]
  | cons succ rest ih =>
    by_cases hlt : count < maxFiles
    · obtain ⟨b, hb⟩ : ∃ b, maxFiles - count = b + 1 := ⟨maxFiles - count - 1, by omega⟩
      have hb' : maxFiles - (count + 1) = b := by omega
      rw [hb]
      show (if ¬ count < maxFiles then count else _) = _
      rw [if_neg (by simpa using hlt)]
      by_cases hbc : succ.beingCompacted
      · rw [if_pos hbc]
        simp [acceptedRunCount, windowAccepts, hbc]
      · rw [if_neg hbc]
        by_cases hsz : (cand : ℚ) * (100 + ratio) / 100 < (succ.size : ℚ)
        · rw [if_pos hsz]
          have : windowAccepts similar ratio cand succ = false := by
            simp [windowAccepts, hbc, not_le.mpr hsz]
          simp [acceptedRunCount, this]
        · rw [if_neg hsz]
          cases similar with
          | false =>
            have hacc : windowAccepts false ratio cand succ = true := by
              simp [windowAccepts, hbc, not_lt.mp hsz]
            rw [if_neg (by simp)]
            rw [ih (count + 1) (cand + succ.compensatedFileSize) (by omega)]
            simp [acceptedRunCount, hacc, windowNextCand, hb']
            omega
          | true =>
            rw [if_pos rfl]
            by_cases hsim : (succ.size : ℚ) * (100 + ratio) / 100 < (cand : ℚ)
            · rw [if_pos hsim]
              have : windowAccepts true ratio cand succ = false := by
                simp [windowAccepts, hbc, not_le.mpr hsim]
              simp [acceptedRunCount, this]
            · rw [if_neg hsim]
              have hacc : windowAccepts true ratio cand succ = true := by
                simp [windowAccepts, hbc, not_lt.mp hsz, not_lt.mp hsim]
              rw [ih (count + 1) succ.compensatedFileSize (by omega)]
              simp [acceptedRunCount, hacc, windowNextCand, hb']
              omega
    · have hcm : count = maxFiles := by omega
      have h0 : maxFiles - count = 0 := by omega
      rw [h0]
      show (if ¬ count < maxFiles then count else _) = _
      rw [if_pos (by simpa using hlt)]
      simp [acceptedRunCount]

theorem c5_amended_witness :
    windowExtend false 25 5 [⟨0, none, 12, 12, false, false⟩] 1 10 =
      1 + acceptedRunCount false 25 (5 - 1) 10 [⟨0, none, 12, 12, false, false⟩] :=
  c5_amended false 25 5 [⟨0, none, 12, 12, false, false⟩] 1 10 (by norm_num)

/-! ### Strategy: DeleteTriggered (`PickDeleteTriggeredCompaction`, lines 1132-1261) -/

/-- Modelled from the spec: the generic multi-level helpers the delete-triggered
strategy calls are defined in db/compaction_picker.cc, which is not among the
sources.  `pickFilesMarked` stands for `PickFilesMarkedForCompaction` (§4.8: "pick
one marked file via the generic files-marked-for-compaction procedure", yielding the
start level and the start-level inputs; empty when nothing was picked);
`overlappingL0` stands for `GetOverlappingL0Files` (§4.8: "expand to all overlapping
L0 files"; `none` models its failure return); `setupOtherInputs` stands for
`SetupOtherInputs` (§4.8: "add the overlapping inputs of output_level"; `none` models
failure); `rangeOverlapWithCompaction` stands for `FilesRangeOverlapWithCompaction`
(§8 P2: whether the expanded plan would range-conflict with an in-flight plan at the
output level). -/
structure BaseHelpers where
  pickFilesMarked : Option (ℕ × List (FileMeta ℤ))
  overlappingL0 : List (FileMeta ℤ) → ℕ → Option (List (FileMeta ℤ))
  setupOtherInputs : List (FileMeta ℤ) → ℕ →
    Option (List (FileMeta ℤ) × List (FileMeta ℤ))
  rangeOverlapWithCompaction : List (ℕ × List (FileMeta ℤ)) → ℕ → Bool

/-- Plan construction of the delete-triggered strategy (lines 1230-1260): the
estimated size is the plain size of the output level's files; under lazy compaction
with a non-zero output level the purpose is Map with one subcompaction; the plan is
flagged manual; reason `kFilesMarkedForCompaction`. -/
def mkDeleteTriggeredPlan (v : VersionStorage) (opts : Options) (score : ℚ)
    (inputs : List (ℕ × List (FileMeta ℤ))) (outputLevel : ℕ) : Plan :=
  let lazyMap := opts.enableLazyCompaction ∧ outputLevel ≠ 0
  { inputs := inputs
    outputLevel := outputLevel
    outputPathId := getPathId opts.cfPaths opts.universal.sizeRatio
      (((v.levelFiles outputLevel).map (·.fileSize)).sum)
    score := score
    purpose := if lazyMap then SstPurpose.mapSst else SstPurpose.essence
    maxSubcompactions := if lazyMap then 1 else 0
    manualCompaction := true
    rangedCompaction := false
    inputRange := []
    reason := CompactionReason.filesMarkedForCompaction
    enableCompression := true
    isTrivialMove := false }

/-- The single-level (`num_levels == 1`) selection loop of
`PickDeleteTriggeredCompaction` (lines 1150-1157): the `compact` flag latches at the
first marked-for-compaction L0 file, after which every file of the walk (the marked
one and all FOLLOWING, i.e. older, files; L0 is ordered index 0 = newest) is pushed. -/
def deleteTriggeredL0Selection : Bool → List (FileMeta ℤ) → List (FileMeta ℤ)
  | _, [] => []
  | compact, f :: rest =>
    (if compact || f.markedForCompaction then [f] else []) ++
      deleteTriggeredL0Selection (compact || f.markedForCompaction) rest

/-- `UniversalCompactionPicker::PickDeleteTriggeredCompaction` (lines 1132-1261). -/
def pickDeleteTriggeredCompaction (v : VersionStorage) (opts : Options)
    (helpers : BaseHelpers) (score : ℚ) : Option Plan :=
  if v.numLevels = 1 then
    let sel := deleteTriggeredL0Selection false (v.levelFiles 0)
    if sel.length ≤ 1 then none
    else some (mkDeleteTriggeredPlan v opts score [(0, sel)] 0)
  else
    match helpers.pickFilesMarked with
    | none => none
    | some (startLevel, startInputs) =>
      if startInputs = [] then none
      else
        -- first non-empty level after start_level, num_levels when none (lines 1176-1181)
        let oLevel0 :=
          match ((List.range v.numLevels).filter
            (fun l => decide (startLevel < l) && !(v.levelFiles l).isEmpty)).head? with
          | some l => l
          | none => v.numLevels
        let step1 : Option ℕ :=
          if oLevel0 = v.numLevels then
            if startLevel = 0 then some (v.numLevels - 1) else none
          else some oLevel0
        match step1 with
        | none => none
        | some ol1 =>
          let outputLevel :=
            if opts.allowIngestBehind ∧ ol1 = v.numLevels - 1 then ol1 - 1 else ol1
          if outputLevel ≠ 0 then
            match (if startLevel = 0 then helpers.overlappingL0 startInputs outputLevel
                   else some startInputs) with
            | none => none
            | some startInputs1 =>
              match helpers.setupOtherInputs startInputs1 outputLevel with
              | none => none
              | some (startInputs2, outputInputs) =>
                let inputs := [(startLevel, startInputs2)] ++
                  (if outputInputs = [] then [] else [(outputLevel, outputInputs)])
                if helpers.rangeOverlapWithCompaction inputs outputLevel then none
                else some (mkDeleteTriggeredPlan v opts score inputs outputLevel)
          else some (mkDeleteTriggeredPlan v opts score [(startLevel, startInputs)]
            outputLevel)

lemma deleteTriggeredL0Selection_true (files : List (FileMeta ℤ)) :
    deleteTriggeredL0Selection true files = files := by
  induction files with
  | nil => rfl
  | cons f rest ih => simp [deleteTriggeredL0Selection, ih]

lemma deleteTriggeredL0Selection_eq_drop (files : List (FileMeta ℤ)) :
    deleteTriggeredL0Selection false files =
      files.drop (files.findIdx (·.markedForCompaction)) := by
  induction files with
  | nil => rfl
  | cons f rest ih =>
    cases hm : f.markedForCompaction with
    | true =>
      simp [deleteTriggeredL0Selection, hm, deleteTriggeredL0Selection_true,
        List.findIdx_cons]
    | false =>
      simp [deleteTriggeredL0Selection, hm, List.findIdx_cons, ih]

def fileC3a : FileMeta ℤ := ⟨11, 0, 10, 10, 0, 1, 5, 6, false, false, SstPurpose.essence, []⟩

def fileC3b : FileMeta ℤ := ⟨12, 0, 10, 10, 2, 3, 3, 4, false, true, SstPurpose.essence, []⟩

def fileC3c : FileMeta ℤ := ⟨13, 0, 10, 10, 4, 5, 1, 2, false, false, SstPurpose.essence, []⟩

def vC3 : VersionStorage := ⟨[[fileC3a, fileC3b, fileC3c]], [], 0, [false]⟩

def optsC3 : Options :=
  ⟨4, ⟨1, 2, 10, 200, -1, CompactionStopStyle.totalSize, false⟩, false, false, 0, 0, 1,
    [1000]⟩

def helpersC3 : BaseHelpers := ⟨none, fun _ _ => none, fun _ _ => none, fun _ _ => false⟩

/-- C3 counterexample: a single-level engine with L0 = [newest unmarked f_a, marked
f_b, oldest unmarked f_c].  The claim says the inputs are the first marked file
together with all NEWER files, i.e. [f_a, f_b]; the code selects the marked file and
all OLDER files, [f_b, f_c]. -/
theorem c3_counterexample :
    (pickDeleteTriggeredCompaction vC3 optsC3 helpersC3 0).map (·.inputs) =
        some [(0, [fileC3b, fileC3c])] ∧
      some [(0, [fileC3b, fileC3c])] ≠ some [((0 : ℕ), [fileC3a, fileC3b])] := by
  constructor
  · rfl
  · decide

/-- C3 amended: when `num_levels == 1`, `PickDeleteTriggeredCompaction` selects the
first marked-for-compaction L0 file together with all OLDER L0 files (the suffix of
the L0 list from the first marked index; L0 index 0 is the newest), and returns no
plan when this selection would contain at most one file (in particular when no file
is marked). -/
theorem c3_amended (v : VersionStorage) (opts : Options) (helpers : BaseHelpers)
    (score : ℚ) (h1 : v.numLevels = 1) :
    pickDeleteTriggeredCompaction v opts helpers score =
      (if ((v.levelFiles 0).drop
            ((v.levelFiles 0).findIdx (·.markedForCompaction))).length ≤ 1 then none
       else some (mkDeleteTriggeredPlan v opts score
         [(0, (v.levelFiles 0).drop
            ((v.levelFiles 0).findIdx (·.markedForCompaction)))] 0)) := by
  simp only [pickDeleteTriggeredCompaction, h1, if_true,
    deleteTriggeredL0Selection_eq_drop]

theorem c3_amended_witness :
    pickDeleteTriggeredCompaction vC3 optsC3 helpersC3 0 =
      (if ((vC3.levelFiles 0).drop
            ((vC3.levelFiles 0).findIdx (·.markedForCompaction))).length ≤ 1 then none
       else some (mkDeleteTriggeredPlan vC3 optsC3 0
         [(0, (vC3.levelFiles 0).drop
            ((vC3.levelFiles 0).findIdx (·.markedForCompaction)))] 0)) :=
  c3_amended vC3 optsC3 helpersC3 0 rfl

/-! ### Geometric grouping: `GenSortedRunGroup` (lines 705-774)

The Newton–Raphson helper `Q` (lines 707-729) produces a double that influences the
result only through the branch decisions `q > 1` and `new_q < q` of the refinement
loop, and through the `sr_acc > q_acc || |new_acc − q_acc| > |sr_acc − q_acc|`
disjunct of the partition sweep.  Claim C8 asserts the structural output shape
regardless of the outcomes of that floating-point computation, so these decisions are
abstracted as boolean oracles (`cont`, `adopt`, `evt`); the forced parts of the
conditions (`i > 0`, `i < q_i`, `q_i > 0`) and all the pure-`sr` bookkeeping remain
concrete. -/

/-- One output group of `GenSortedRunGroup`: `start`, `count`, summed `ratio`. -/
structure SRGroup where
  start : ℕ
  count : ℕ
  ratio : ℚ
deriving DecidableEq

instance : Inhabited SRGroup := ⟨⟨0, 0, 0⟩⟩

/-- Pointwise update of the output array `o` (modelled as a total function). -/
def updFn (o : ℕ → SRGroup) (k : ℕ) (x : SRGroup) : ℕ → SRGroup :=
  Function.update o k x

/-- The refinement loop (lines 736-750): `i` walks from `group-1` down to 1 while
`q > 1` (oracle `cont`); when the refined ratio decreases (oracle `adopt`), each tail
entry `j ∈ [i, g)` becomes a singleton group starting at `j + sr_size - g`, after
which `sr_size` and `g` shrink by `e = g - i`. -/
def shrinkLoop (cont adopt : ℕ → Bool) (sr : List ℚ) :
    ℕ → ((ℕ → SRGroup) × ℕ × ℕ) → ((ℕ → SRGroup) × ℕ × ℕ)
  | 0, st => st
  | i + 1, (o, srSize, g) =>
    if cont (i + 1) then
      if adopt (i + 1) then
        shrinkLoop cont adopt sr i
          (fun j =>
            if i + 1 ≤ j ∧ j < g then ⟨j + srSize - g, 1, sr.getD (j + srSize - g) 0⟩
            else o j,
           srSize - (g - (i + 1)), i + 1)
      else shrinkLoop cont adopt sr i (o, srSize, g)
    else (o, srSize, g)

/-- One iteration of the partition sweep (lines 757-768) at index `i`: a boundary
event (forced when `i < q_i`, otherwise decided by the float oracle `evt`, and
blocked once `q_i = 0`) sets `o[q_i].start = i + 1`, decrements `q_i` and zeroes the
new group's ratio; afterwards `sr[i]` is added to the current group's ratio. -/
def sweepStep (evt : ℕ → Bool) (sr : List ℚ) (i qi : ℕ) (o : ℕ → SRGroup) :
    ((ℕ → SRGroup) × ℕ) :=
  let p : (ℕ → SRGroup) × ℕ :=
    if (decide (i < qi) || evt i) && decide (0 < qi) then
      let oA := updFn o qi { o qi with start := i + 1 }
      (updFn oA (qi - 1) { oA (qi - 1) with ratio := 0 }, qi - 1)
    else (o, qi)
  (updFn p.1 p.2 { p.1 p.2 with ratio := (p.1 p.2).ratio + sr.getD i 0 }, p.2)

/-- The partition sweep (lines 757-768), `i` from `sr_size - 2` down to 0. -/
def sweepLoop (evt : ℕ → Bool) (sr : List ℚ) :
    ℕ → ℕ → (ℕ → SRGroup) → ((ℕ → SRGroup) × ℕ)
  | 0, qi, o => sweepStep evt sr 0 qi o
  | i + 1, qi, o =>
    let p := sweepStep evt sr (i + 1) qi o
    sweepLoop evt sr i p.2 p.1

/-- The final count computation (lines 769-772): `o[i-1].count = o[i].start -
o[i-1].start` for `i ∈ [1, g)` and `o[g-1].count = sr_size - o[g-1].start`. -/
def applyCounts (o : ℕ → SRGroup) (g srSize : ℕ) : ℕ → SRGroup :=
  fun j =>
    if j + 1 < g then { o j with count := (o (j + 1)).start - (o j).start }
    else if j = g - 1 then { o j with count := srSize - (o j).start }
    else o j

/-- The tail of `GenSortedRunGroup` after the refinement loop (lines 752-772): the
pre-sweep writes `o[q_i].ratio = sr[sr_size-1]` and `o[0].start = 0`, the partition
sweep when `sr_size ≥ 2`, and the final count computation. -/
def genGroupFinish (evt : ℕ → Bool) (sr : List ℚ) (o1 : ℕ → SRGroup) (m g G : ℕ) :
    List SRGroup :=
  let o2 := updFn o1 (g - 1) { o1 (g - 1) with ratio := sr.getD (m - 1) 0 }
  let o3 := updFn o2 0 { o2 0 with start := 0 }
  let s2 : ((ℕ → SRGroup) × ℕ) :=
    if 2 ≤ m then sweepLoop evt sr (m - 2) (g - 1) o3 else (o3, g - 1)
  (List.range G).map (applyCounts s2.1 g m)

/-- `GenSortedRunGroup` (lines 705-774) with the float-derived branch decisions as
oracles.  `o.resize(group)` value-initializes the output array (all fields zero). -/
def genSortedRunGroup (cont adopt evt : ℕ → Bool) (sr : List ℚ) (group : ℕ) :
    List SRGroup :=
  let s1 := shrinkLoop cont adopt sr (group - 1) (fun _ => ⟨0, 0, 0⟩, sr.length, group)
  genGroupFinish evt sr s1.1 s1.2.1 s1.2.2 group

/-- The shape claim C8 makes about the groups: counts that sum to `n` and contiguous
starts beginning at index 0. -/
def groupsContiguous (groups : List SRGroup) : Prop :=
  (groups.getD 0 default).start = 0 ∧
    ∀ j, j + 1 < groups.length →
      (groups.getD (j + 1) default).start =
        (groups.getD j default).start + (groups.getD j default).count

/-- Invariant of the refinement loop: `g` stays in `[1, group]`, `sr_size` keeps
`sr_size + group = n + g`, and every already-shrunk tail entry `j ∈ [g, group)` is a
singleton group starting at `j + (n - group)`. -/
def ShrinkInv (n G : ℕ) (o : ℕ → SRGroup) (m g : ℕ) : Prop :=
  1 ≤ g ∧ g ≤ G ∧ m + G = n + g ∧
    ∀ j, g ≤ j → j < G → (o j).start = j + (n - G) ∧ (o j).count = 1

lemma shrinkLoop_inv (cont adopt : ℕ → Bool) (sr : List ℚ) (n G : ℕ) (hGn : G ≤ n) :
    ∀ i (o : ℕ → SRGroup) (m g : ℕ), ShrinkInv n G o m g → i < g →
      ShrinkInv n G (shrinkLoop cont adopt sr i (o, m, g)).1
        (shrinkLoop cont adopt sr i (o, m, g)).2.1
        (shrinkLoop cont adopt sr i (o, m, g)).2.2 := by
  intro i
  induction i with
  | zero => intro o m g hinv _; exact hinv
  | succ i ih =>
    intro o m g hinv hlt
    obtain ⟨hg1, hgG, hms, hreg⟩ := hinv
    simp only [shrinkLoop]
    by_cases hc : cont (i + 1)
    · rw [if_pos hc]
      by_cases ha : adopt (i + 1)
      · rw [if_pos ha]
        refine ih _ _ _ ⟨by omega, by omega, by omega, ?_⟩ (by omega)
        intro j hj hjG
        dsimp only
        by_cases hjg : i + 1 ≤ j ∧ j < g
        · rw [if_pos hjg]
          have : j + m - g = j + (n - G) := by omega
          rw [this]
          exact ⟨rfl, rfl⟩
        · rw [if_neg hjg]
          exact hreg j (by omega) hjG
      · rw [if_neg ha]
        exact ih o m g ⟨hg1, hgG, hms, hreg⟩ (by omega)
    · rw [if_neg hc]
      exact ⟨hg1, hgG, hms, hreg⟩

lemma sweepStep_snd (evt : ℕ → Bool) (sr : List ℚ) (i qi : ℕ) (o : ℕ → SRGroup) :
    (sweepStep evt sr i qi o).2 =
      if ((decide (i < qi) || evt i) && decide (0 < qi)) = true then qi - 1 else qi := by
  unfold sweepStep
  split_ifs with h <;> simp [h]

lemma sweepStep_apply (evt : ℕ → Bool) (sr : List ℚ) (i qi : ℕ) (o : ℕ → SRGroup)
    (k : ℕ) :
    ((sweepStep evt sr i qi o).1 k).count = (o k).count ∧
    ((sweepStep evt sr i qi o).1 k).start =
      (if ((decide (i < qi) || evt i) && decide (0 < qi)) = true ∧ k = qi then i + 1
       else (o k).start) := by
  by_cases hev : ((decide (i < qi) || evt i) && decide (0 < qi)) = true
  · have hq : 0 < qi := by
      have h := hev
      simp only [Bool.and_eq_true, decide_eq_true_eq] at h
      exact h.2
    have hne : ¬ ((qi : ℕ) - 1 = qi) := by omega
    simp only [sweepStep, if_pos hev, updFn, Function.update_apply]
    by_cases hk2 : k = qi
    · subst hk2
      have hkk : ¬ (k = k - 1) := by omega
      simp only [hev, true_and, if_true, if_neg hkk]
    · by_cases hk1 : k = qi - 1
      · subst hk1
        simp [hne, hev, hk2]
      · simp [hk1, hk2, hev]
  · simp only [sweepStep, if_neg hev, updFn, Function.update_apply]
    by_cases hk2 : k = qi
    · subst hk2
      simp [hev]
    · simp [hk2, hev]

lemma sweepStep_count (evt : ℕ → Bool) (sr : List ℚ) (i qi : ℕ) (o : ℕ → SRGroup)
    (k : ℕ) : ((sweepStep evt sr i qi o).1 k).count = (o k).count :=
  (sweepStep_apply evt sr i qi o k).1

lemma sweepStep_start (evt : ℕ → Bool) (sr : List ℚ) (i qi : ℕ) (o : ℕ → SRGroup)
    (k : ℕ) : ((sweepStep evt sr i qi o).1 k).start =
      if ((decide (i < qi) || evt i) && decide (0 < qi)) = true ∧ k = qi then i + 1
      else (o k).start :=
  (sweepStep_apply evt sr i qi o k).2

/-- What the partition sweep guarantees when started at index `i` with cursor
`qi ≤ i + 1`: the cursor ends at 0, counts are untouched, starts outside `[1, qi]`
are untouched, every start written inside `[1, qi]` satisfies
`k ≤ start` and `start + qi ≤ i + 1 + k`, and those starts are strictly
increasing. -/
lemma sweepLoop_spec (evt : ℕ → Bool) (sr : List ℚ) :
    ∀ i qi (o : ℕ → SRGroup), qi ≤ i + 1 →
      (sweepLoop evt sr i qi o).2 = 0 ∧
      (∀ k, ((sweepLoop evt sr i qi o).1 k).count = (o k).count) ∧
      (∀ k, k = 0 ∨ qi < k → ((sweepLoop evt sr i qi o).1 k).start = (o k).start) ∧
      (∀ k, 1 ≤ k → k ≤ qi →
        k ≤ ((sweepLoop evt sr i qi o).1 k).start ∧
        ((sweepLoop evt sr i qi o).1 k).start + qi ≤ i + 1 + k) ∧
      (∀ k, 1 ≤ k → k + 1 ≤ qi →
        ((sweepLoop evt sr i qi o).1 k).start <
          ((sweepLoop evt sr i qi o).1 (k + 1)).start) := by
  intro i
  induction i with
  | zero =>
    intro qi o hqi
    interval_cases qi
    · -- qi = 0: the guard blocks any event
      have hev : ((decide (0 < 0) || evt 0) && decide ((0:ℕ) < 0)) = true ↔ False := by
        simp
      refine ⟨?_, ?_, ?_, ?_, ?_⟩
      · rw [show sweepLoop evt sr 0 0 o = sweepStep evt sr 0 0 o from rfl,
          sweepStep_snd]
        simp
      · intro k
        exact sweepStep_count evt sr 0 0 o k
      · intro k _
        rw [show sweepLoop evt sr 0 0 o = sweepStep evt sr 0 0 o from rfl,
          sweepStep_start]
        simp
      · intro k hk1 hk0; omega
      · intro k hk1 hk0; omega
    · -- qi = 1: the event is forced at i = 0
      have hev : ((decide (0 < 1) || evt 0) && decide ((0:ℕ) < 1)) = true := by simp
      refine ⟨?_, ?_, ?_, ?_, ?_⟩
      · rw [show sweepLoop evt sr 0 1 o = sweepStep evt sr 0 1 o from rfl,
          sweepStep_snd, if_pos hev]
      · intro k
        exact sweepStep_count evt sr 0 1 o k
      · intro k hk
        rw [show sweepLoop evt sr 0 1 o = sweepStep evt sr 0 1 o from rfl,
          sweepStep_start]
        have : ¬ (((decide (0 < 1) || evt 0) && decide ((0:ℕ) < 1)) = true ∧ k = 1) := by
          omega
        rw [if_neg this]
      · intro k hk1 hk2
        have hk : k = 1 := by omega
        subst hk
        rw [show sweepLoop evt sr 0 1 o = sweepStep evt sr 0 1 o from rfl,
          sweepStep_start, if_pos ⟨hev, rfl⟩]
        omega
      · intro k hk1 hk2; omega
  | succ i ih =>
    intro qi o hqi
    have hrw : sweepLoop evt sr (i + 1) qi o =
        sweepLoop evt sr i (sweepStep evt sr (i + 1) qi o).2
          (sweepStep evt sr (i + 1) qi o).1 := rfl
    by_cases hev : ((decide (i + 1 < qi) || evt (i + 1)) && decide (0 < qi)) = true
    · -- an event fires at index i+1
      have hqipos : 0 < qi := by
        have h := hev
        simp only [Bool.and_eq_true, decide_eq_true_eq] at h
        exact h.2
      have hsnd : (sweepStep evt sr (i + 1) qi o).2 = qi - 1 := by
        rw [sweepStep_snd, if_pos hev]
      have hq1 : qi - 1 ≤ i + 1 := by omega
      obtain ⟨ha, hb, hc, hd, he⟩ := ih (qi - 1) (sweepStep evt sr (i + 1) qi o).1 hq1
      rw [hrw, hsnd]
      refine ⟨ha, ?_, ?_, ?_, ?_⟩
      · intro k
        rw [hb k, sweepStep_count]
      · intro k hk
        rw [hc k (by omega), sweepStep_start]
        have : ¬ (((decide (i + 1 < qi) || evt (i + 1)) && decide (0 < qi)) = true ∧
            k = qi) := by
          rintro ⟨-, hkq⟩
          omega
        rw [if_neg this]
      · intro k hk1 hkqi
        by_cases hkq : k = qi
        · have hst : ((sweepLoop evt sr i (qi - 1)
              (sweepStep evt sr (i + 1) qi o).1).1 k).start =
              ((sweepStep evt sr (i + 1) qi o).1 k).start := hc k (by omega)
          rw [hst, sweepStep_start, if_pos ⟨hev, hkq⟩]
          omega
        · have hk2 : k ≤ qi - 1 := by omega
          obtain ⟨hlo, hhi⟩ := hd k hk1 hk2
          exact ⟨hlo, by omega⟩
      · intro k hk1 hk2
        by_cases hkq : k + 1 = qi
        · have hkk : k ≤ qi - 1 := by omega
          obtain ⟨-, hhi⟩ := hd k hk1 hkk
          have hst : ((sweepLoop evt sr i (qi - 1)
              (sweepStep evt sr (i + 1) qi o).1).1 (k + 1)).start =
              ((sweepStep evt sr (i + 1) qi o).1 (k + 1)).start := hc (k + 1) (by omega)
          rw [hst, sweepStep_start, if_pos ⟨hev, hkq⟩]
          omega
        · exact he k hk1 (by omega)
    · -- no event at index i+1
      have hsnd : (sweepStep evt sr (i + 1) qi o).2 = qi := by
        rw [sweepStep_snd, if_neg hev]
      have hqle : qi ≤ i + 1 := by
        by_cases h0 : 0 < qi
        · by_contra hgt
          apply hev
          simp only [Bool.and_eq_true, Bool.or_eq_true, decide_eq_true_eq]
          exact ⟨Or.inl (by omega), h0⟩
        · omega
      obtain ⟨ha, hb, hc, hd, he⟩ := ih qi (sweepStep evt sr (i + 1) qi o).1 hqle
      rw [hrw, hsnd]
      have hstep_start : ∀ k, ((sweepStep evt sr (i + 1) qi o).1 k).start = (o k).start := by
        intro k
        rw [sweepStep_start]
        have : ¬ (((decide (i + 1 < qi) || evt (i + 1)) && decide (0 < qi)) = true ∧
            k = qi) := by
          rintro ⟨h, -⟩
          exact hev h
        rw [if_neg this]
      refine ⟨ha, ?_, ?_, ?_, ?_⟩
      · intro k
        rw [hb k, sweepStep_count]
      · intro k hk
        rw [hc k hk, hstep_start]
      · intro k hk1 hk2
        obtain ⟨hlo, hhi⟩ := hd k hk1 hk2
        exact ⟨hlo, by omega⟩
      · exact he

lemma applyCounts_start (o : ℕ → SRGroup) (g m j : ℕ) :
    (applyCounts o g m j).start = (o j).start := by
  unfold applyCounts
  split_ifs <;> rfl

lemma applyCounts_count_lt (o : ℕ → SRGroup) (g m j : ℕ) (h : j + 1 < g) :
    (applyCounts o g m j).count = (o (j + 1)).start - (o j).start := by
  unfold applyCounts
  rw [if_pos h]

lemma applyCounts_count_last (o : ℕ → SRGroup) (g m j : ℕ) (h1 : ¬ j + 1 < g)
    (h2 : j = g - 1) : (applyCounts o g m j).count = m - (o j).start := by
  unfold applyCounts
  rw [if_neg h1, if_pos h2]

lemma applyCounts_count_ge (o : ℕ → SRGroup) (g m j : ℕ) (h1 : ¬ j + 1 < g)
    (h2 : ¬ j = g - 1) : (applyCounts o g m j).count = (o j).count := by
  unfold applyCounts
  rw [if_neg h1, if_neg h2]

lemma range_map_getD (f : ℕ → SRGroup) (G j : ℕ) (h : j < G) :
    (((List.range G).map f).getD j default) = f j := by
  rw [List.getD_eq_getElem?_getD, List.getElem?_map, List.getElem?_range h]
  rfl

lemma contiguous_sum (o : ℕ → SRGroup) (G : ℕ) (h0 : (o 0).start = 0)
    (hstep : ∀ j, j + 1 < G → (o (j + 1)).start = (o j).start + (o j).count) :
    ∀ j, j < G →
      ((List.range (j + 1)).map (fun k => (o k).count)).sum =
        (o j).start + (o j).count := by
  intro j
  induction j with
  | zero =>
    intro _
    rw [show List.range 1 = [0] from rfl]
    simp [h0]
  | succ j ih =>
    intro hj
    rw [List.range_succ, List.map_append, List.sum_append]
    rw [ih (by omega)]
    have := hstep j (by omega)
    simp
    omega

/-- The structural result of `GenSortedRunGroup` after the refinement loop, given the
refinement invariant: counts sum to `n` and starts are contiguous from 0. -/
lemma genGroupFinish_shape (evt : ℕ → Bool) (sr : List ℚ) (o1 : ℕ → SRGroup)
    (m g G : ℕ) (hGn : G ≤ sr.length)
    (hinv : ShrinkInv sr.length G o1 m g) :
    (((genGroupFinish evt sr o1 m g G).map (·.count)).sum = sr.length) ∧
      groupsContiguous (genGroupFinish evt sr o1 m g G) := by
  obtain ⟨hg1, hgG, hmg, hreg⟩ := hinv
  have hgm : g ≤ m := by omega
  set n := sr.length with hn
  set o2 := updFn o1 (g - 1) { o1 (g - 1) with ratio := sr.getD (m - 1) 0 } with ho2
  set o3 := updFn o2 0 { o2 0 with start := 0 } with ho3
  set s2 := (if 2 ≤ m then sweepLoop evt sr (m - 2) (g - 1) o3 else (o3, g - 1)) with hs2
  have hgen : genGroupFinish evt sr o1 m g G =
      (List.range G).map (applyCounts s2.1 g m) := rfl
  have ho2start : ∀ k, (o2 k).start = (o1 k).start := by
    intro k
    simp only [ho2, updFn, Function.update_apply]
    by_cases hk : k = g - 1
    · rw [if_pos hk, hk]
    · rw [if_neg hk]
  have ho2count : ∀ k, (o2 k).count = (o1 k).count := by
    intro k
    simp only [ho2, updFn, Function.update_apply]
    by_cases hk : k = g - 1
    · rw [if_pos hk, hk]
    · rw [if_neg hk]
  have ho3start0 : (o3 0).start = 0 := by
    simp [ho3, updFn, Function.update_same]
  have ho3start : ∀ k, 1 ≤ k → (o3 k).start = (o1 k).start := by
    intro k hk
    rw [ho3, updFn, Function.update_apply, if_neg (by omega), ho2start]
  have ho3count : ∀ k, (o3 k).count = (o1 k).count := by
    intro k
    rw [ho3, updFn, Function.update_apply]
    by_cases hk : k = 0
    · rw [if_pos hk]
      show (o2 0).count = (o1 k).count
      rw [ho2count, hk]
    · rw [if_neg hk, ho2count]
  -- the unified facts about the post-sweep array s2.1
  have hA : ((s2.1 0).start = 0) ∧
      (∀ k, g ≤ k → k < G → (s2.1 k).start = k + (n - G) ∧ (s2.1 k).count = 1) ∧
      (∀ k, 1 ≤ k → k ≤ g - 1 → k ≤ (s2.1 k).start ∧ (s2.1 k).start + g ≤ m + k) ∧
      (∀ k, 1 ≤ k → k + 1 ≤ g - 1 → (s2.1 k).start < (s2.1 (k + 1)).start) := by
    by_cases hm2 : 2 ≤ m
    · have hq1 : g - 1 ≤ (m - 2) + 1 := by omega
      obtain ⟨-, hcnt, hfr, hbnd, hmono⟩ := sweepLoop_spec evt sr (m - 2) (g - 1) o3 hq1
      rw [hs2, if_pos hm2]
      refine ⟨?_, ?_, ?_, ?_⟩
      · rw [hfr 0 (Or.inl rfl), ho3start0]
      · intro k hk hkG
        constructor
        · rw [hfr k (Or.inr (by omega)), ho3start k (by omega)]
          exact (hreg k hk hkG).1
        · rw [hcnt k, ho3count k]
          exact (hreg k hk hkG).2
      · intro k hk1 hk2
        have := hbnd k hk1 hk2
        omega
      · exact hmono
    · -- m ≤ 1 forces m = 1 and g = 1: the sweep is skipped and its region is empty
      have hm1 : m = 1 := by omega
      have hg1' : g = 1 := by omega
      rw [hs2, if_neg hm2]
      refine ⟨ho3start0, ?_, ?_, ?_⟩
      · intro k hk hkG
        exact ⟨by rw [ho3start k (by omega)]; exact (hreg k hk hkG).1,
          by rw [ho3count k]; exact (hreg k hk hkG).2⟩
      · intro k hk1 hk2; omega
      · intro k hk1 hk2; omega
  obtain ⟨hA0, hAreg, hAbnd, hAmono⟩ := hA
  -- start bound at the last sweep group
  have hlastle : (s2.1 (g - 1)).start ≤ m := by
    rcases Nat.eq_zero_or_pos (g - 1) with h0 | hpos
    · rw [h0, hA0]; omega
    · have := hAbnd (g - 1) hpos (le_refl _)
      omega
  -- contiguity of the final array
  have hcont : ∀ j, j + 1 < G →
      (applyCounts s2.1 g m (j + 1)).start =
        (applyCounts s2.1 g m j).start + (applyCounts s2.1 g m j).count := by
    intro j hj
    rw [applyCounts_start, applyCounts_start]
    by_cases hjg : j + 1 < g
    · rw [applyCounts_count_lt s2.1 g m j hjg]
      have hle : (s2.1 j).start ≤ (s2.1 (j + 1)).start := by
        rcases Nat.eq_zero_or_pos j with h0 | hpos
        · rw [h0, hA0]; omega
        · exact le_of_lt (hAmono j hpos (by omega))
      omega
    · by_cases hjeq : j = g - 1
      · rw [applyCounts_count_last s2.1 g m j hjg hjeq]
        have hreg1 := hAreg (j + 1) (by omega) hj
        have hjle : (s2.1 j).start ≤ m := by rw [hjeq]; exact hlastle
        rw [hreg1.1]
        omega
      · rw [applyCounts_count_ge s2.1 g m j hjg hjeq]
        have hr0 := hAreg j (by omega) (by omega)
        have hr1 := hAreg (j + 1) (by omega) hj
        rw [hr0.1, hr0.2, hr1.1]
        omega
    -- end of hcont
  have hstart0 : (applyCounts s2.1 g m 0).start = 0 := by
    rw [applyCounts_start]; exact hA0
  constructor
  · -- sum of counts = n
    rw [hgen, List.map_map]
    have hsum := contiguous_sum (applyCounts s2.1 g m) G hstart0 hcont (G - 1) (by omega)
    have hrange : G - 1 + 1 = G := by omega
    rw [hrange] at hsum
    have : ((List.range G).map ((fun x => x.count) ∘ applyCounts s2.1 g m)).sum =
        ((List.range G).map (fun k => (applyCounts s2.1 g m k).count)).sum := rfl
    rw [this, hsum]
    by_cases hGg : g = G
    · -- no shrunk region: the last group closes at m = n
      have hjg : ¬ (G - 1) + 1 < g := by omega
      have hjeq : G - 1 = g - 1 := by omega
      rw [applyCounts_start, applyCounts_count_last s2.1 g m (G - 1) hjg hjeq]
      have : (s2.1 (G - 1)).start ≤ m := by rw [hjeq]; exact hlastle
      omega
    · -- the last group is a shrunk singleton
      have hr := hAreg (G - 1) (by omega) (by omega)
      have hjg : ¬ (G - 1) + 1 < g := by omega
      have hjeq : ¬ G - 1 = g - 1 := by omega
      rw [applyCounts_start, applyCounts_count_ge s2.1 g m (G - 1) hjg hjeq, hr.1, hr.2]
      omega
  · -- contiguity in the list form
    constructor
    · rw [hgen, range_map_getD _ G 0 (by omega)]
      exact hstart0
    · intro j hj
      rw [hgen] at hj ⊢
      rw [List.length_map, List.length_range] at hj
      rw [range_map_getD _ G (j + 1) hj, range_map_getD _ G j (by omega)]
      exact hcont j hj

/-- C8: for every non-empty input size sequence of length `n` and every target group
count `g` with `1 ≤ g ≤ n`, `GenSortedRunGroup` emits a group list whose counts sum
to `n` and whose groups are contiguous (each group's start equals the previous
group's start plus its count, beginning at index 0), regardless of the outcomes of
the floating-point ratio computation (quantified here as the branch oracles `cont`,
`adopt`, `evt`). -/
theorem c8_gen_sorted_run_group (cont adopt evt : ℕ → Bool) (sr : List ℚ)
    (group : ℕ) (hg1 : 1 ≤ group) (hgn : group ≤ sr.length) :
    ((genSortedRunGroup cont adopt evt sr group).map (·.count)).sum = sr.length ∧
      groupsContiguous (genSortedRunGroup cont adopt evt sr group) := by
  have hinv0 : ShrinkInv sr.length group (fun _ => ⟨0, 0, 0⟩) sr.length group :=
    ⟨hg1, le_refl _, rfl, fun j hj hjG => absurd (lt_of_le_of_lt hj hjG) (lt_irrefl _)⟩
  have hshr := shrinkLoop_inv cont adopt sr sr.length group hgn (group - 1)
    (fun _ => ⟨0, 0, 0⟩) sr.length group hinv0 (by omega)
  exact genGroupFinish_shape evt sr _ _ _ group hgn hshr

theorem c8_gen_sorted_run_group_witness :
    (((genSortedRunGroup (fun _ => true) (fun _ => true) (fun _ => false)
        [1, 2, 4] 2).map (·.count)).sum = 3) ∧
      groupsContiguous (genSortedRunGroup (fun _ => true) (fun _ => true)
        (fun _ => false) [1, 2, 4] 2) :=
  c8_gen_sorted_run_group (fun _ => true) (fun _ => true) (fun _ => false)
    [1, 2, 4] 2 (by norm_num) (by norm_num)

/-! ### Overlap check: `IsInputFilesNonOverlapping` (lines 40-94 and 121-165) -/

/-- A heap entry (`InputFileInfo`): the level number of the input vector the file
came from, the front file, and the not-yet-loaded rest of that vector (successors
are pushed one at a time as their predecessor pops; L0 entries are all loaded
upfront, so their tail is empty). -/
structure HeapEntry (K : Type) where
  lvl : ℕ
  hd : FileMeta K
  tl : List (FileMeta K)

/-- `create_level_heap` (lines 70-94): when the first input vector is L0
(`l == 0 && c->start_level() == 0`) all of its files are loaded individually;
otherwise only the front file of each non-empty input vector is loaded. -/
def createLevelHeap {K : Type} (inputs : List (ℕ × List (FileMeta K))) :
    List (HeapEntry K) :=
  match inputs with
  | [] => []
  | (l0, fs0) :: rest =>
    (if l0 = 0 then fs0.map (fun f => ⟨0, f, []⟩)
     else match fs0 with
       | [] => []
       | f :: fs => [⟨l0, f, fs⟩]) ++
    rest.filterMap (fun e =>
      match e.2 with
      | [] => none
      | f :: fs => some ⟨e.1, f, fs⟩)

/-- Pop the entry with the minimal smallest key (`SmallestKeyHeapComparator`,
lines 51-61).  The C++ `std::priority_queue` leaves the relative order of equal keys
unspecified; the embedding pops the first minimal entry. -/
def popMinEntry {K : Type} [LinearOrder K] :
    List (HeapEntry K) → Option (HeapEntry K × List (HeapEntry K))
  | [] => none
  | e :: es =>
    match popMinEntry es with
    | none => some (e, [])
    | some (m, rest) =>
      if e.hd.smallest ≤ m.hd.smallest then some (e, es) else some (m, e :: rest)

/-- After popping `curr`, the next file of the same input vector is pushed when the
entry's level number is non-zero (lines 151-162). -/
def pushSuccessor {K : Type} (m : HeapEntry K) (rest : List (HeapEntry K)) :
    List (HeapEntry K) :=
  if m.lvl ≠ 0 then
    match m.tl with
    | [] => rest
    | f :: fs => rest ++ [⟨m.lvl, f, fs⟩]
  else rest

/-- Termination measure: total number of files reachable from the heap. -/
def heapWeight {K : Type} (es : List (HeapEntry K)) : ℕ :=
  (es.map (fun e => e.tl.length + 1)).sum

lemma popMinEntry_eq_none {K : Type} [LinearOrder K] (es : List (HeapEntry K)) :
    popMinEntry es = none ↔ es = [] := by
  cases es with
  | nil => simp [popMinEntry]
  | cons e es =>
    rw [popMinEntry]
    cases h : popMinEntry es with
    | none => simp
    | some p =>
      obtain ⟨m, rest⟩ := p
      dsimp only
      split_ifs <;> simp

lemma popMinEntry_weight {K : Type} [LinearOrder K] :
    ∀ (es : List (HeapEntry K)) m rest, popMinEntry es = some (m, rest) →
      heapWeight es = heapWeight rest + (m.tl.length + 1) := by
  intro es
  induction es with
  | nil => intro m rest h; simp [popMinEntry] at h
  | cons e es ih =>
    intro m rest h
    cases hes : popMinEntry es with
    | none =>
      have hnil : es = [] := (popMinEntry_eq_none es).mp hes
      subst hnil
      simp only [popMinEntry] at h
      obtain ⟨rfl, rfl⟩ := h
      simp [heapWeight]
    | some p =>
      obtain ⟨m', rest'⟩ := p
      rw [popMinEntry, hes] at h
      dsimp only at h
      by_cases hle : e.hd.smallest ≤ m'.hd.smallest
      · rw [if_pos hle] at h
        simp only [Option.some.injEq, Prod.mk.injEq] at h
        obtain ⟨rfl, rfl⟩ := h
        simp [heapWeight]
        omega
      · rw [if_neg hle] at h
        simp only [Option.some.injEq, Prod.mk.injEq] at h
        obtain ⟨rfl, rfl⟩ := h
        have := ih m' rest' hes
        simp only [heapWeight, List.map_cons, List.sum_cons] at this ⊢
        omega

lemma pushSuccessor_weight {K : Type} (m : HeapEntry K) (rest : List (HeapEntry K)) :
    heapWeight (pushSuccessor m rest) ≤ heapWeight rest + m.tl.length := by
  unfold pushSuccessor
  split_ifs with h
  · cases htl : m.tl with
    | nil => simp
    | cons f fs => simp [heapWeight, htl]
  · omega

/-- The enumeration of all input files in heap pop order. -/
def heapEnumGo {K : Type} [LinearOrder K] (es : List (HeapEntry K)) :
    List (FileMeta K) :=
  match h : popMinEntry es with
  | none => []
  | some (m, rest) => m.hd :: heapEnumGo (pushSuccessor m rest)
termination_by heapWeight es
decreasing_by
  have h1 := popMinEntry_weight es m rest h
  have h2 := pushSuccessor_weight m rest
  omega

/-- The main loop of `IsInputFilesNonOverlapping` (lines 133-163) after the first
pop: report overlap (false) as soon as a popped file's smallest key fails to exceed
the previously popped file's largest key. -/
def nonOverlapGo {K : Type} [LinearOrder K] (es : List (HeapEntry K))
    (prev : FileMeta K) : Bool :=
  match h : popMinEntry es with
  | none => true
  | some (m, rest) =>
    if m.hd.smallest ≤ prev.largest then false
    else nonOverlapGo (pushSuccessor m rest) m.hd
termination_by heapWeight es
decreasing_by
  have h1 := popMinEntry_weight es m rest h
  have h2 := pushSuccessor_weight m rest
  omega

/-- `UniversalCompactionPicker::IsInputFilesNonOverlapping` (lines 123-165),
including the `heap.size() <= 1` early true return. -/
def isInputFilesNonOverlapping {K : Type} [LinearOrder K]
    (inputs : List (ℕ × List (FileMeta K))) : Bool :=
  let h := createLevelHeap inputs
  if h.length ≤ 1 then true
  else
    match popMinEntry h with
    | none => true
    | some (m, rest) => nonOverlapGo (pushSuccessor m rest) m.hd

/-- All of the plan's input files in ascending smallest-key order via the min-heap
over file fronts: the enumeration claim C4 speaks about. -/
def heapEnumeration {K : Type} [LinearOrder K]
    (inputs : List (ℕ × List (FileMeta K))) : List (FileMeta K) :=
  heapEnumGo (createLevelHeap inputs)

/-- Chain check: each successive file's smallest key strictly exceeds the previous
file's largest key. -/
def chainFromB {K : Type} [LinearOrder K] (prev : FileMeta K) :
    List (FileMeta K) → Bool
  | [] => true
  | c :: rest => decide (prev.largest < c.smallest) && chainFromB c rest

/-- Pairwise-adjacent strict separation of a file list (vacuously true when at most
one file). -/
def pairwiseStrict {K : Type} [LinearOrder K] : List (FileMeta K) → Bool
  | [] => true
  | a :: rest => chainFromB a rest

lemma nonOverlapGo_eq_chain {K : Type} [LinearOrder K] (n : ℕ) :
    ∀ (es : List (HeapEntry K)) (prev : FileMeta K), heapWeight es ≤ n →
      nonOverlapGo es prev = chainFromB prev (heapEnumGo es) := by
  induction n with
  | zero =>
    intro es prev hw
    have hnil : es = [] := by
      cases es with
      | nil => rfl
      | cons e es' => simp [heapWeight] at hw
    subst hnil
    have hp : popMinEntry ([] : List (HeapEntry K)) = none := rfl
    rw [nonOverlapGo, hp, heapEnumGo, hp]
    rfl
  | succ n ih =>
    intro es prev hw
    cases hpop : popMinEntry es with
    | none =>
      rw [nonOverlapGo, hpop, heapEnumGo, hpop]
      rfl
    | some p =>
      obtain ⟨m, rest⟩ := p
      have h1 := popMinEntry_weight es m rest hpop
      have h2 := pushSuccessor_weight m rest
      have hw' : heapWeight (pushSuccessor m rest) ≤ n := by omega
      rw [nonOverlapGo, hpop, heapEnumGo, hpop]
      dsimp only
      rw [chainFromB]
      by_cases hle : m.hd.smallest ≤ prev.largest
      · rw [if_pos hle]
        have : decide (prev.largest < m.hd.smallest) = false := by
          simp [not_lt.mpr hle]
        rw [this, Bool.false_and]
      · rw [if_neg hle]
        have : decide (prev.largest < m.hd.smallest) = true := by
          simp [lt_of_not_le hle]
        rw [this, Bool.true_and]
        exact ih (pushSuccessor m rest) m.hd hw'

lemma heapEnumGo_single {K : Type} [LinearOrder K] (lvl : ℕ) (hl : lvl ≠ 0) :
    ∀ (fs : List (FileMeta K)) (f : FileMeta K),
      heapEnumGo [(⟨lvl, f, fs⟩ : HeapEntry K)] = f :: fs := by
  intro fs
  induction fs with
  | nil =>
    intro f
    rw [heapEnumGo]
    simp [popMinEntry, pushSuccessor, heapEnumGo]
  | cons f' fs' ih =>
    intro f
    rw [heapEnumGo]
    rw [show popMinEntry [(⟨lvl, f, f' :: fs'⟩ : HeapEntry K)] =
      some (⟨lvl, f, f' :: fs'⟩, []) from rfl]
    dsimp only
    rw [show pushSuccessor (⟨lvl, f, f' :: fs'⟩ : HeapEntry K) [] =
      [⟨lvl, f', fs'⟩] from by simp [pushSuccessor, hl]]
    rw [ih f']

lemma createLevelHeap_mem {K : Type} (inputs : List (ℕ × List (FileMeta K)))
    (e : HeapEntry K) (he : e ∈ createLevelHeap inputs) (hlvl : e.lvl ≠ 0) :
    ∃ p ∈ inputs, p.1 = e.lvl ∧ p.2 = e.hd :: e.tl := by
  match inputs with
  | [] => simp [createLevelHeap] at he
  | (l0, fs0) :: rest =>
    simp only [createLevelHeap] at he
    rcases List.mem_append.mp he with hleft | hright
    · by_cases h0 : l0 = 0
      · rw [if_pos h0] at hleft
        rcases List.mem_map.mp hleft with ⟨f, -, hf⟩
        rw [← hf] at hlvl
        simp at hlvl
      · rw [if_neg h0] at hleft
        cases hfs : fs0 with
        | nil =>
          rw [hfs] at hleft
          have hleft' : e ∈ ([] : List (HeapEntry K)) := hleft
          simp at hleft'
        | cons f fs =>
          rw [hfs] at hleft
          have hleft' : e ∈ [(⟨l0, f, fs⟩ : HeapEntry K)] := hleft
          simp at hleft'
          subst hleft'
          exact ⟨(l0, f :: fs), List.mem_cons_self _ _, rfl, rfl⟩
    · rcases List.mem_filterMap.mp hright with ⟨a, ha, hmatch⟩
      cases hfs : a.2 with
      | nil =>
        rw [hfs] at hmatch
        have hm : (none : Option (HeapEntry K)) = some e := hmatch
        simp at hm
      | cons f fs =>
        rw [hfs] at hmatch
        have hm : (⟨a.1, f, fs⟩ : HeapEntry K) = e := by
          have h' : some (⟨a.1, f, fs⟩ : HeapEntry K) = some e := hmatch
          exact Option.some.inj h'
        refine ⟨a, List.mem_cons_of_mem _ ha, ?_, ?_⟩
        · rw [← hm]
        · rw [← hm, hfs]

/-- C4: `IsInputFilesNonOverlapping` returns true iff, enumerating all of the
candidate plan's input files in ascending smallest-key order via the min-heap over
file fronts, every enumerated file's smallest key strictly exceeds the previously
enumerated file's largest key under the internal-key comparator (vacuously true when
at most one file is enumerated).  The hypothesis is the §3 data-model invariant that
every non-L0 input level is sorted with pairwise-disjoint key ranges; it is needed
exactly for the `heap.size() <= 1` early return, where a single non-L0 input level
is accepted without walking its remaining files. -/
theorem c4_non_overlapping {K : Type} [LinearOrder K]
    (inputs : List (ℕ × List (FileMeta K)))
    (hlvl : ∀ p ∈ inputs, p.1 ≠ 0 → pairwiseStrict p.2 = true) :
    isInputFilesNonOverlapping inputs = pairwiseStrict (heapEnumeration inputs) := by
  unfold isInputFilesNonOverlapping heapEnumeration
  by_cases hlen : (createLevelHeap inputs).length ≤ 1
  · rw [if_pos hlen]
    cases hh : createLevelHeap inputs with
    | nil =>
      rw [heapEnumGo]
      rw [show popMinEntry ([] : List (HeapEntry K)) = none from rfl]
      rfl
    | cons e es =>
      have hes : es = [] := by
        rw [hh] at hlen
        simp only [List.length_cons] at hlen
        exact List.length_eq_zero.mp (by omega)
      subst hes
      by_cases h0 : e.lvl = 0
      · rw [heapEnumGo]
        rw [show popMinEntry [e] = some (e, []) from rfl]
        dsimp only
        rw [show pushSuccessor e [] = [] from by simp [pushSuccessor, h0]]
        rw [heapEnumGo]
        rw [show popMinEntry ([] : List (HeapEntry K)) = none from rfl]
        rfl
      · obtain ⟨p, hp, hp1, hp2⟩ := createLevelHeap_mem inputs e
          (by rw [hh]; exact List.mem_cons_self _ _) h0
        have he : e = (⟨e.lvl, e.hd, e.tl⟩ : HeapEntry K) := rfl
        rw [he, heapEnumGo_single e.lvl h0 e.tl e.hd]
        have := hlvl p hp (by rw [hp1]; exact h0)
        rw [hp2] at this
        rw [← this]
  · rw [if_neg hlen]
    cases hpop : popMinEntry (createLevelHeap inputs) with
    | none =>
      rw [popMinEntry_eq_none] at hpop
      rw [hpop]
      rw [heapEnumGo]
      rw [show popMinEntry ([] : List (HeapEntry K)) = none from rfl]
      rfl
    | some p =>
      obtain ⟨m, rest⟩ := p
      rw [heapEnumGo, hpop]
      show nonOverlapGo (pushSuccessor m rest) m.hd =
        pairwiseStrict (m.hd :: heapEnumGo (pushSuccessor m rest))
      rw [show pairwiseStrict (m.hd :: heapEnumGo (pushSuccessor m rest)) =
        chainFromB m.hd (heapEnumGo (pushSuccessor m rest)) from rfl]
      exact nonOverlapGo_eq_chain (heapWeight (pushSuccessor m rest))
        (pushSuccessor m rest) m.hd (le_refl _)

theorem c4_non_overlapping_witness :
    isInputFilesNonOverlapping
        [((0 : ℕ), [fileC3a, fileC3b]), (1, [fileC3c])] =
      pairwiseStrict (heapEnumeration [((0 : ℕ), [fileC3a, fileC3b]), (1, [fileC3c])]) :=
  c4_non_overlapping [((0 : ℕ), [fileC3a, fileC3b]), (1, [fileC3c])] (by decide)

/-! ### Strategy: Composite (`PickCompositeCompaction`, lines 1341-1747) -/

/-- A decoded entry of a map SST (`MapSstElement`).  Keys are modelled as in
`FileMeta`, and `ExtractUserKey` as the identity (every key comparison of the picker
is homogeneous: extracted user keys are only ever compared against extracted user
keys, and internal keys against internal keys), so `smallestKey`/`largestKey` serve
as both.  `link` is the `link_` vector as (file_number, size) pairs; `decodeOk`
records whether `MapSstElement::Decode` succeeds on the stored entry (the iterator
yields the same bytes on every pass, so decoding is a function of the entry). -/
structure MapSstElement where
  smallestKey : ℤ
  largestKey : ℤ
  includeSmallest : Bool
  includeLargest : Bool
  link : List (ℕ × ℕ)
  decodeOk : Bool
deriving DecidableEq

/-- A map-element iterator as the table cache opens it: its status after opening
(`iter->status().ok()`) and the entries it yields in key order. -/
structure CompositeIter where
  ok : Bool
  elems : List MapSstElement
deriving DecidableEq

instance : Inhabited RangeStorage := ⟨⟨0, 0, false, false⟩⟩

/-- The table-cache/environment oracles of the composite and range strategies and of
the selector: `tableCachePresent` models `table_cache_ != nullptr`; `readAmp` models
`GetTableProperties` followed by `GetSstReadAmp` (`none` = non-OK status, which
contributes nothing); `compositeIter` models `table_cache_->NewIterator` on a map SST
(lines 1467-1470); `rangeIter` models `NewMapElementIterator` over a level's files
(lines 1788-1790); `isPreface` models `IsPrefaceRange` (defined outside the sources)
on an element's range and a file; `estimateSize` models `MapSstElement::EstimateSize`
(defined outside the sources); `pass2Ranges` abstracts the second pass of
`PickCompositeCompaction` (lines 1568-1699), which orders candidates by a heap of
`double` priorities: its output feeds only `input_range`, which no claim inspects,
while its decode-failure abort is kept concrete in `pickCompositeCompaction`. -/
structure TableExt where
  tableCachePresent : Bool
  readAmp : FileMeta ℤ → Option ℕ
  compositeIter : FileMeta ℤ → CompositeIter
  rangeIter : List (FileMeta ℤ) → CompositeIter
  isPreface : ℤ → ℤ → Bool → Bool → FileMeta ℤ → Bool
  estimateSize : MapSstElement → ℕ
  pass2Ranges : List MapSstElement → List RangeStorage

/-- `is_perfect` (lines 1476-1493): a single-link element whose link resolves in
`depend_files` to a plain file (`sst_purpose == 0`) and whose range is a preface
range of that file; `false` when the link is missing from the map. -/
def isPerfect (v : VersionStorage) (ext : TableExt) (e : MapSstElement) : Bool :=
  match e.link with
  | [(fn, _)] =>
    match dependFind v.dependFiles fn with
    | none => false
    | some f =>
      decide (f.purpose = SstPurpose.essence) &&
        ext.isPreface e.smallestKey e.largestKey e.includeSmallest e.includeLargest f
  | _ => false

/-- The empty-range merge of `new_compaction` (lines 1400-1412): a range whose start
or limit user key equals its predecessor's is folded into the predecessor, which
takes over its limit and limit inclusion. -/
def mergeEmptyGo : RangeStorage → List RangeStorage → List RangeStorage
  | prev, [] => [prev]
  | prev, r :: rest =>
    if r.start = prev.start ∨ r.limit = prev.limit then
      mergeEmptyGo { prev with limit := r.limit, includeLimit := r.includeLimit } rest
    else prev :: mergeEmptyGo r rest

def removeEmptyRanges : List RangeStorage → List RangeStorage
  | [] => []
  | r :: rest => mergeEmptyGo r rest

/-- `new_compaction` (lines 1398-1455): output at the input level, path id from the
summed input file sizes, a single input vector, a ranged (`partial_compaction`) plan
with reason `kCompositeAmplification`. -/
def newCompositePlan (opts : Options) (lvl : ℕ) (files : List (FileMeta ℤ))
    (purpose : SstPurpose) (maxSub : ℕ) (ranges : List RangeStorage) : Plan :=
  { inputs := [(lvl, files)]
    outputLevel := lvl
    outputPathId := getPathId opts.cfPaths opts.universal.sizeRatio
      ((files.map (·.fileSize)).sum)
    score := 0
    purpose := purpose
    maxSubcompactions := maxSub
    manualCompaction := false
    rangedCompaction := true
    inputRange := removeEmptyRanges ranges
    reason := CompactionReason.compositeAmplification
    enableCompression := true
    isTrivialMove := false }

/-- Lines 1377-1389: consult the table properties of the single candidate file; on an
OK status adopt it when its read amplification reaches the current maximum. -/
def compositeConsider (ext : TableExt) (f : FileMeta ℤ) (level : ℕ)
    (st : Option ℕ × List (FileMeta ℤ) × ℕ) : Option ℕ × List (FileMeta ℤ) × ℕ :=
  match ext.readAmp f with
  | none => st
  | some amp => if st.2.2 ≤ amp then (some level, [f], amp) else st

/-- The target-selection loop of `PickCompositeCompaction` (lines 1350-1390), walking
the sorted runs oldest first (`rbegin`, so applied to the reversed run list): state is
the chosen level (`none` models `inputs.level == -1`), the chosen files and
`max_read_amp`.  Runs waiting for a reduce are skipped; a non-L0 run needs space
amplification and a level not already in compaction, and a multi-file such level
stops the walk with cleared files; an L0 run needs a non-compacting map SST.  (The
front file of an empty non-L0 level cannot occur for runs of `CalculateSortedRuns`;
the embedding skips such a run.) -/
def compositeSelLoop (v : VersionStorage) (ext : TableExt) :
    List SortedRun → (Option ℕ × List (FileMeta ℤ) × ℕ) →
    (Option ℕ × List (FileMeta ℤ) × ℕ)
  | [], st => st
  | sr :: rest, st =>
    if sr.waitReduce then compositeSelLoop v ext rest st
    else if sr.level ≠ 0 then
      if ¬ v.hasSpaceAmpAt sr.level then compositeSelLoop v ext rest st
      else if areFilesInCompaction (v.levelFiles sr.level) then
        compositeSelLoop v ext rest st
      else if 1 < (v.levelFiles sr.level).length then (some sr.level, [], st.2.2)
      else
        match (v.levelFiles sr.level).head? with
        | none => compositeSelLoop v ext rest st
        | some f => compositeSelLoop v ext rest (compositeConsider ext f sr.level st)
    else
      match sr.file with
      | none => compositeSelLoop v ext rest st
      | some f =>
        if f.beingCompacted ∨ f.purpose ≠ SstPurpose.mapSst then
          compositeSelLoop v ext rest st
        else compositeSelLoop v ext rest (compositeConsider ext f sr.level st)

/-- The first composite pass (lines 1513-1563): walk the elements, abort (`none`) on
a decode failure, skip perfect elements; an element with more than two links
dominated by its largest link (`(sum - max) * 2 < max`) opens or extends the current
range, any other element closes it (dropping it silently when its smallest user key
equals the accumulated limit); the walk stops once `max_subcompactions` ranges were
collected, and a still-open range at the end is closed at the front file's largest
user key (`set_include_limit`, lines 1507-1512). -/
def compositePass1 (v : VersionStorage) (ext : TableExt) (maxSub : ℕ)
    (frontLargest : ℤ) :
    List MapSstElement → Bool → RangeStorage → List RangeStorage →
    Option (List RangeStorage)
  | [], hasStart, r, acc =>
    some (if hasStart then acc ++ [{ r with limit := frontLargest, includeLimit := true }]
          else acc)
  | e :: rest, hasStart, r, acc =>
    if ¬ e.decodeOk then none
    else if isPerfect v ext e then
      compositePass1 v ext maxSub frontLargest rest hasStart r acc
    else
      let sizes := e.link.map (·.2)
      if 2 < e.link.length ∧ (sizes.sum - sizes.foldl max 0) * 2 < sizes.foldl max 0 then
        compositePass1 v ext maxSub frontLargest rest true
          (if hasStart then { r with limit := e.largestKey }
           else { r with start := e.smallestKey, limit := e.largestKey }) acc
      else if hasStart then
        if e.smallestKey ≠ r.limit then
          let r2 : RangeStorage :=
            { r with limit := e.smallestKey
                     includeStart := true
                     includeLimit := false }
          if maxSub ≤ acc.length + 1 then some (acc ++ [r2])
          else compositePass1 v ext maxSub frontLargest rest false r2 (acc ++ [r2])
        else compositePass1 v ext maxSub frontLargest rest false r acc
      else compositePass1 v ext maxSub frontLargest rest false r acc

/-- The third composite pass (lines 1703-1740): collapse runs of non-perfect
elements into ranges, closing a range at a perfect element whose smallest user key
differs from the accumulated limit; a still-open range at the end is closed at the
front file's largest user key with both ends included. -/
def compositePass3 (v : VersionStorage) (ext : TableExt) (maxSub : ℕ)
    (frontLargest : ℤ) :
    List MapSstElement → Bool → RangeStorage → List RangeStorage → List RangeStorage
  | [], hasStart, r, acc =>
    if hasStart then
      acc ++ [{ r with includeStart := true
                       limit := frontLargest
                       includeLimit := true }]
    else acc
  | e :: rest, hasStart, r, acc =>
    if hasStart then
      if isPerfect v ext e ∧ e.smallestKey ≠ r.limit then
        let r2 : RangeStorage :=
          { r with limit := e.smallestKey
                   includeStart := true
                   includeLimit := false }
        if maxSub ≤ acc.length + 1 then acc ++ [r2]
        else compositePass3 v ext maxSub frontLargest rest false r2 (acc ++ [r2])
      else compositePass3 v ext maxSub frontLargest rest true
        { r with limit := e.largestKey } acc
    else
      if isPerfect v ext e then compositePass3 v ext maxSub frontLargest rest false r acc
      else compositePass3 v ext maxSub frontLargest rest true
        { r with start := e.smallestKey, limit := e.largestKey } acc

/-- `UniversalCompactionPicker::PickCompositeCompaction` (lines 1341-1747). -/
def pickCompositeCompaction (v : VersionStorage) (opts : Options) (ext : TableExt)
    (sortedRuns : List SortedRun) : Option Plan :=
  if ¬ v.hasSpaceAmp then none
  else
    match compositeSelLoop v ext sortedRuns.reverse (none, [], 0) with
    | (none, _, _) => none
    | (some lvl, selFiles, _) =>
      match selFiles with
      | [] => some (newCompositePlan opts lvl (v.levelFiles lvl) SstPurpose.mapSst 1 [])
      | f :: _ =>
        if ¬ (ext.compositeIter f).ok then none
        else
          let elems := (ext.compositeIter f).elems
          match compositePass1 v ext opts.maxSubcompactions f.largest elems false
            default [] with
          | none => none
          | some r1 =>
            if ¬ r1.isEmpty then
              some (newCompositePlan opts lvl selFiles SstPurpose.linkSst
                opts.maxSubcompactions r1)
            else if elems.any (fun e => !e.decodeOk) then none
            else if ¬ (ext.pass2Ranges elems).isEmpty then
              some (newCompositePlan opts lvl selFiles SstPurpose.essence
                opts.maxSubcompactions (ext.pass2Ranges elems))
            else
              let r3 := compositePass3 v ext opts.maxSubcompactions f.largest elems
                false default []
              if ¬ r3.isEmpty then
                some (newCompositePlan opts lvl selFiles SstPurpose.essence
                  opts.maxSubcompactions r3)
              else if lvl ≠ 0 then
                some (newCompositePlan opts lvl selFiles SstPurpose.mapSst 1 [])
              else none

/-! ### Strategy: Range (`PickRangeCompaction`, lines 1749-1918) -/

/-- `begin != nullptr && ic.Compare(e.largest_key_, begin->Encode()) < 0`. -/
def beforeBegin (b : Option ℤ) (el : MapSstElement) : Bool :=
  match b with
  | none => false
  | some bk => decide (el.largestKey < bk)

/-- `end != nullptr && ic.Compare(e.smallest_key_, end->Encode()) > 0`. -/
def afterEnd (en : Option ℤ) (el : MapSstElement) : Bool :=
  match en with
  | none => false
  | some ek => decide (ek < el.smallestKey)

/-- `need_compact` (lines 1804-1829): the element intersects the manual range and one
of its links (or a dependency of a linked file) is among the files being compacted; a
link missing from `depend_files` is skipped. -/
def needCompact (v : VersionStorage) (fbc : List ℕ) (b en : Option ℤ)
    (el : MapSstElement) : Bool :=
  if beforeBegin b el then false
  else if afterEnd en el then false
  else el.link.any (fun l =>
    decide (l.1 ∈ fbc) ||
      (match dependFind v.dependFiles l.1 with
       | none => false
       | some f => f.sstDepend.any (fun fn => decide (fn ∈ fbc))))

/-- The closing key of a still-open manual range (lines 1881-1893): the maximal
largest key over the level's files for L0, the last file's largest key otherwise
(the level is non-empty on this path). -/
def rangeEndKey (v : VersionStorage) (level : ℕ) : ℤ :=
  if level = 0 then
    match v.levelFiles level with
    | [] => 0
    | f :: fs => fs.foldl (fun acc g => max acc g.largest) f.largest
  else (((v.levelFiles level).getLast?).map (·.largest)).getD 0

/-- The manual-range sweep (lines 1830-1877): group consecutive `need_compact`
elements into ranges, splitting once the accumulated subcompaction size reaches
`max_compaction_bytes` (the accumulator is only reset when a range is closed by a
non-matching element), and stopping at `max_subcompactions` ranges; a still-open
range at the end is closed at the level's end key with both ends included (lines
1878-1896).  Returns the ranges and `estimated_total_size`. -/
def rangeSweep (v : VersionStorage) (ext : TableExt) (opts : Options) (fbc : List ℕ)
    (b en : Option ℤ) (endKey : ℤ) :
    List MapSstElement → Bool → RangeStorage → ℕ → ℕ → List RangeStorage →
    (List RangeStorage × ℕ)
  | [], hasStart, r, subSize, estTotal, acc =>
    if hasStart then
      (acc ++ [{ r with includeStart := true
                        limit := endKey
                        includeLimit := true }], estTotal + subSize)
    else (acc, estTotal)
  | el :: rest, hasStart, r, subSize, estTotal, acc =>
    if hasStart then
      if needCompact v fbc b en el then
        if subSize < opts.maxCompactionBytes then
          rangeSweep v ext opts fbc b en endKey rest true
            { r with limit := el.largestKey } (subSize + ext.estimateSize el)
            estTotal acc
        else
          let r2 : RangeStorage :=
            { r with limit := el.smallestKey
                     includeStart := true
                     includeLimit := false }
          if opts.maxSubcompactions ≤ acc.length + 1 then
            (acc ++ [r2], estTotal + subSize)
          else
            rangeSweep v ext opts fbc b en endKey rest true
              { r2 with start := el.smallestKey, limit := el.largestKey }
              (subSize + ext.estimateSize el) (estTotal + subSize) (acc ++ [r2])
      else
        let r2 : RangeStorage :=
          { r with limit := el.smallestKey
                   includeStart := true
                   includeLimit := false }
        if opts.maxSubcompactions ≤ acc.length + 1 then
          (acc ++ [r2], estTotal + subSize)
        else rangeSweep v ext opts fbc b en endKey rest false r2 0
          (estTotal + subSize) (acc ++ [r2])
    else
      if needCompact v fbc b en el then
        rangeSweep v ext opts fbc b en endKey rest true
          { r with start := el.smallestKey, limit := el.largestKey }
          (subSize + ext.estimateSize el) estTotal acc
      else rangeSweep v ext opts fbc b en endKey rest false r subSize estTotal acc

/-- `UniversalCompactionPicker::PickRangeCompaction` (lines 1749-1918): the manual
range compaction over one level.  `files_being_compact` is a list of file numbers
(the null pointer and the empty set act identically, line 1757); the second component
of the result is the `*manual_conflict` output flag. -/
def pickRangeCompaction (v : VersionStorage) (opts : Options) (ext : TableExt)
    (level : ℕ) (b en : Option ℤ) (fbc : List ℕ) (manualConflict : Bool) :
    Option Plan × Bool :=
  if fbc.isEmpty ∨ (v.levelFiles level).isEmpty then (none, manualConflict)
  else if areFilesInCompaction (v.levelFiles level) then (none, true)
  else if level = 0 ∧ 1 < (v.levelFiles level).length then
    (some { inputs := [(level, v.levelFiles level)]
            outputLevel := level
            outputPathId := getPathId opts.cfPaths opts.universal.sizeRatio (2 ^ 20)
            score := 0
            purpose := SstPurpose.mapSst
            maxSubcompactions := 0
            manualCompaction := false
            rangedCompaction := false
            inputRange := []
            reason := CompactionReason.unknown
            enableCompression := true
            isTrivialMove := false }, manualConflict)
  else if ¬ (ext.rangeIter (v.levelFiles level)).ok then (none, manualConflict)
  else
    let sw := rangeSweep v ext opts fbc b en (rangeEndKey v level)
      (ext.rangeIter (v.levelFiles level)).elems false default 0 0 []
    if sw.1.isEmpty then (none, manualConflict)
    else
      (some { inputs := [(level, v.levelFiles level)]
              outputLevel := level
              outputPathId := getPathId opts.cfPaths opts.universal.sizeRatio sw.2
              score := 0
              purpose := SstPurpose.essence
              maxSubcompactions := 0
              manualCompaction := false
              rangedCompaction := true
              inputRange := sw.1
              reason := CompactionReason.unknown
              enableCompression := true
              isTrivialMove := false }, manualConflict)

/-! ### Strategy: TrivialMove (`PickTrivialMoveCompaction`, lines 1263-1339) -/

/-- `is_compaction_output_level` (lines 1275-1282). -/
def isCompactionOutputLevel (st : PickerState) (l : ℕ) : Bool :=
  st.inProgress.any (fun c => c.outputLevel == l)

/-- The inner empty-level search (lines 1285-1292): walk `output_level` down to 1
looking for an empty level that is no in-flight compaction's output; below 1 the
strategy gives up. -/
def findEmptyLevel (v : VersionStorage) (st : PickerState) : ℕ → Option ℕ
  | 0 => none
  | l + 1 =>
    if (v.levelFiles (l + 1)).isEmpty ∧ ¬ isCompactionOutputLevel st (l + 1) then
      some (l + 1)
    else findEmptyLevel v st l

/-- The inner start-level search (lines 1294-1304): walk down from
`output_level - 1` until hitting an in-flight output level (found = false) or a
non-empty level (found = true); reaching 0 means the last L0 file will move. -/
def findStartLevel (v : VersionStorage) (st : PickerState) : ℕ → (ℕ × Bool)
  | 0 => (0, false)
  | l + 1 =>
    if isCompactionOutputLevel st (l + 1) then (l + 1, false)
    else if ¬ (v.levelFiles (l + 1)).isEmpty then (l + 1, true)
    else findStartLevel v st l

/-- The outer `while (true)` of `PickTrivialMoveCompaction` (lines 1283-1314).  The
fuel only bounds the iteration count: each pass resumes at `start_level - 1`, at
least two below the previous `output_level`, so with `num_levels + 1` units the fuel
never runs out for a start value of at most `num_levels - 1`. -/
def trivialMoveLoop (v : VersionStorage) (st : PickerState) : ℕ → ℕ → Option (ℕ × ℕ)
  | 0, _ => none
  | fuel + 1, ol =>
    match findEmptyLevel v st ol with
    | none => none
    | some ol2 =>
      let p := findStartLevel v st (ol2 - 1)
      if p.1 = 0 then some (0, ol2)
      else if p.2 ∧ ¬ areFilesInCompaction (v.levelFiles p.1) then some (p.1, ol2)
      else trivialMoveLoop v st fuel (p.1 - 1)

/-- Plan construction of the trivial-move strategy (lines 1315-1338): one input
vector, the file's own path id, reason `kTrivialMoveLevel`. -/
def mkTrivialMovePlan (startLevel : ℕ) (files : List (FileMeta ℤ))
    (outputLevel pathId : ℕ) : Plan :=
  { inputs := [(startLevel, files)]
    outputLevel := outputLevel
    outputPathId := pathId
    score := 0
    purpose := SstPurpose.essence
    maxSubcompactions := 0
    manualCompaction := false
    rangedCompaction := false
    inputRange := []
    reason := CompactionReason.trivialMoveLevel
    enableCompression := true
    isTrivialMove := false }

/-- `UniversalCompactionPicker::PickTrivialMoveCompaction` (lines 1263-1339): move
either the whole found start level (checked not in compaction) or the last L0 file
(checked not being compacted) to the found empty output level. -/
def pickTrivialMoveCompaction (v : VersionStorage) (opts : Options)
    (st : PickerState) : Option Plan :=
  if ¬ opts.universal.allowTrivialMove then none
  else
    let ol0 := if opts.allowIngestBehind then v.numLevels - 2 else v.numLevels - 1
    match trivialMoveLoop v st (v.numLevels + 1) ol0 with
    | none => none
    | some (startLevel, outputLevel) =>
      if startLevel = 0 then
        match (v.levelFiles 0).getLast? with
        | none => none
        | some meta =>
          if meta.beingCompacted then none
          else some (mkTrivialMovePlan 0 [meta] outputLevel meta.pathId)
      else
        some (mkTrivialMovePlan startLevel (v.levelFiles startLevel) outputLevel
          ((((v.levelFiles startLevel).head?).map (·.pathId)).getD 0))

/-! ### Strategy: lazy grouping (`PickCompactionToReduceSortedRuns`, lines 1924-2062) -/

/-- Mark `wait_reduce` on every run of every multi-run group (lines 1948-1955); the
marking runs for all groups, also after a group was selected. -/
def markWaitReduce (group : List SRGroup) (runs : List SortedRun) : List SortedRun :=
  runs.mapIdx (fun i sr =>
    if group.any (fun g =>
        decide (1 < g.count) && decide (g.start ≤ i) && decide (i < g.start + g.count)) then
      { sr with waitReduce := true }
    else sr)

/-- The group selection (lines 1956-1977): the first group holding more than one run,
none of which is being compacted. -/
def selectReduceGroup (runs : List SortedRun) (group : List SRGroup) :
    Option SRGroup :=
  group.find? (fun g =>
    decide (1 < g.count) &&
      !((List.range g.count).any
        (fun j => (runs.getD (g.start + j) default).beingCompacted)))

/-- `UniversalCompactionPicker::PickCompactionToReduceSortedRuns` (lines 1924-2062),
returning the plan and the wait_reduce-updated runs (the caller's `sorted_runs` is
mutated through the pointer even when no plan is returned).  The ratios are the run
sizes over `write_buffer_size` as exact rationals; the float-derived branch decisions
inside `GenSortedRunGroup` are the oracles of `genSortedRunGroup`. -/
def pickCompactionToReduceSortedRuns (v : VersionStorage) (opts : Options)
    (cont adopt evt : ℕ → Bool) (score : ℚ) (sortedRuns : List SortedRun)
    (target0 : ℕ) : Option Plan × List SortedRun :=
  let target := if target0 = 0 then sortedRuns.length else target0
  let ratios := sortedRuns.map (fun sr => (sr.size : ℚ) / (opts.writeBufferSize : ℚ))
  let group := genSortedRunGroup cont adopt evt ratios target
  let runs2 := markWaitReduce group sortedRuns
  match selectReduceGroup sortedRuns group with
  | none => (none, runs2)
  | some g =>
    let endIndex := g.start + g.count
    let picked := (sortedRuns.drop g.start).take g.count
    let startLevel := (sortedRuns.getD g.start default).level
    (some { inputs := picked.foldl (addSortedRunFiles v startLevel)
              (levelInputsTemplate startLevel g.count)
            outputLevel := ratioOutputLevel v opts sortedRuns endIndex
            outputPathId := getPathId opts.cfPaths opts.universal.sizeRatio
              ((picked.map (·.size)).sum)
            score := score
            purpose := SstPurpose.mapSst
            maxSubcompactions := 1
            manualCompaction := false
            rangedCompaction := false
            inputRange := []
            reason := CompactionReason.universalSortedRunNum
            enableCompression := compressionEnabled sortedRuns endIndex
              opts.universal.compressionSizePercent
            isTrivialMove := false }, runs2)

/-! ### The selector: `PickCompaction` (lines 287-518) -/

/-- `GetSstReadAmp` of one surveyed file: a non-OK `GetTableProperties` status or a
read amplification of at most 1 contributes nothing (lines 355-364). -/
def readAmpOf (ext : TableExt) (f : FileMeta ℤ) : ℕ :=
  match ext.readAmp f with
  | none => 0
  | some ra => if 1 < ra then ra else 0

/-- The read-amplification survey (lines 335-365): accumulate (in `size_t`) the read
amplification of each single-file space-amplified run; the second component records
the `level_files.size() > 1` break, which pins the running target to `size_t(-1)`.
(The front file of an empty non-L0 level cannot occur for runs of
`CalculateSortedRuns`; the embedding skips such a run.) -/
def readAmpLoop (v : VersionStorage) (ext : TableExt) :
    List SortedRun → ℕ → ℕ × Bool
  | [], acc => (acc, false)
  | sr :: rest, acc =>
    if sr.level ≠ 0 then
      if ¬ v.hasSpaceAmpAt sr.level then readAmpLoop v ext rest acc
      else if 1 < (v.levelFiles sr.level).length then (acc, true)
      else
        match (v.levelFiles sr.level).head? with
        | none => readAmpLoop v ext rest acc
        | some f => readAmpLoop v ext rest ((acc + readAmpOf ext f) % W64)
    else
      match sr.file with
      | none => readAmpLoop v ext rest acc
      | some f =>
        if f.purpose ≠ SstPurpose.mapSst then readAmpLoop v ext rest acc
        else readAmpLoop v ext rest ((acc + readAmpOf ext f) % W64)

/-- `reduce_sorted_run_target` (lines 326-371): `size_t(-1)` when a map compaction is
in flight or a trivial move was found; otherwise, when the table cache is present and
the run count is within `trigger + num_levels - 1`, the survey runs, and afterwards a
count below the running target (which the multi-file break raised to `size_t(-1)`)
lowers the target to `max(trigger, run_count - 1)`. -/
def reduceSortedRunTarget (v : VersionStorage) (opts : Options) (ext : TableExt)
    (hasMapOrTm : Bool) (runs : List SortedRun) : ℕ :=
  let target0 := opts.level0FileNumCompactionTrigger + v.numLevels - 1
  if hasMapOrTm then W64 - 1
  else if ext.tableCachePresent ∧ 1 < runs.length ∧ runs.length ≤ target0 then
    let p := readAmpLoop v ext runs 0
    let t1 := if p.2 then W64 - 1 else target0
    if p.1 < t1 then max opts.level0FileNumCompactionTrigger (runs.length - 1) else t1
  else target0

/-- The strategy-selection block of `PickCompaction` (lines 312-431), returning the
chosen plan and the (possibly wait_reduce-annotated) sorted runs.  Under lazy
compaction the trivial move is tried first (skipped entirely when a map compaction is
in flight) and the grouping strategy overwrites it only when the run count exceeds
the computed target (which the trivial move's success pins to `size_t(-1)`);
otherwise SizeAmp, then the legacy ratio strategy, then — when more runs than the
trigger are not being compacted — the legacy strategy again with an unlimited ratio
and a file-count budget. -/
def pickCompactionStrategies (v : VersionStorage) (opts : Options) (ext : TableExt)
    (cont adopt evt : ℕ → Bool) (st : PickerState) (score : ℚ)
    (runs0 : List SortedRun) : Option Plan × List SortedRun :=
  if v.hasSpaceAmp ∨ opts.level0FileNumCompactionTrigger ≤ runs0.length then
    if opts.enableLazyCompaction then
      let hasMap := st.inProgress.any (fun c => c.purpose == SstPurpose.mapSst)
      let tm := if hasMap then none else pickTrivialMoveCompaction v opts st
      let target := reduceSortedRunTarget v opts ext (hasMap || tm.isSome) runs0
      if target < runs0.length then
        pickCompactionToReduceSortedRuns v opts cont adopt evt score runs0 target
      else (tm, runs0)
    else
      match pickCompactionToReduceSizeAmp v opts score runs0 with
      | some c => (some c, runs0)
      | none =>
        match pickCompactionToReduceSortedRunsOld v opts score
          opts.universal.sizeRatio U32MAX runs0 with
        | some c => (some c, runs0)
        | none =>
          let nsc := (runs0.filter (fun sr => !sr.beingCompacted)).length
          if opts.level0FileNumCompactionTrigger < nsc then
            (pickCompactionToReduceSortedRunsOld v opts score U32MAX
              (nsc - opts.level0FileNumCompactionTrigger + 1) runs0, runs0)
          else (none, runs0)
  else (none, runs0)

/-- The plan `PickCompaction` settles on, post-processing included (lines 287-469):
the nothing-to-do gate (lines 295-305), the strategy block, the composite fallback
when the table cache is present (lines 432-435), the delete-triggered fallback (lines
437-445), and the trivial-move marking (lines 453-469): with `allow_trivial_move` on
and either a trivial-move plan or no input level with space amplification, the plan's
`is_trivial_move` is set from `IsInputFilesNonOverlapping`. -/
def pickCompactionChosen (v : VersionStorage) (opts : Options) (ext : TableExt)
    (helpers : BaseHelpers) (cont adopt evt : ℕ → Bool) (st : PickerState) :
    Option Plan :=
  let score := v.compactionScoreL0
  let runs0 := calculateSortedRuns v opts
  if runs0.isEmpty ∨ (¬ v.anyMarkedForCompaction ∧ ¬ v.hasSpaceAmp ∧
      runs0.length < opts.level0FileNumCompactionTrigger) then none
  else
    let step := pickCompactionStrategies v opts ext cont adopt evt st score runs0
    let c2 := match step.1 with
      | some c => some c
      | none =>
        if ext.tableCachePresent then pickCompositeCompaction v opts ext step.2
        else none
    let c3 := match c2 with
      | some c => some c
      | none => pickDeleteTriggeredCompaction v opts helpers score
    match c3 with
    | none => none
    | some c =>
      let atm := opts.universal.allowTrivialMove ∧
        (c.reason = CompactionReason.trivialMoveLevel ∨
          ¬ c.inputs.any (fun p => v.hasSpaceAmpAt p.1))
      some (if atm then { c with isTrivialMove := isInputFilesNonOverlapping c.inputs }
            else c)

/-- `UniversalCompactionPicker::PickCompaction` (lines 287-518): every `return
nullptr` site (lines 295-305, 447-451) leaves the picker state alone, and the single
plan-returning site registers the plan (line 512) before returning it. -/
def pickCompaction (v : VersionStorage) (opts : Options) (ext : TableExt)
    (helpers : BaseHelpers) (cont adopt evt : ℕ → Bool) (st : PickerState) :
    Option Plan × PickerState :=
  match pickCompactionChosen v opts ext helpers cont adopt evt st with
  | none => (none, st)
  | some c => (some c, registerCompaction st c)

/-! ### Claim C10: no-plan invocations leave the picker state unchanged -/

/-- C10: when `PickCompaction` returns no plan, the picker's in-flight compaction
state (`compactions_in_progress_` and `level0_compactions_in_progress_`) is left
unchanged: a compaction is registered only on the path that returns a plan. -/
theorem c10_no_plan_frame (v : VersionStorage) (opts : Options) (ext : TableExt)
    (helpers : BaseHelpers) (cont adopt evt : ℕ → Bool) (st : PickerState)
    (h : (pickCompaction v opts ext helpers cont adopt evt st).1 = none) :
    (pickCompaction v opts ext helpers cont adopt evt st).2 = st := by
  unfold pickCompaction at h ⊢
  cases hc : pickCompactionChosen v opts ext helpers cont adopt evt st with
  | none => rfl
  | some c => rw [hc] at h; simp at h

def vC10 : VersionStorage := ⟨[[]], [], 0, [false]⟩

def optsC10 : Options :=
  ⟨4, ⟨1, 2, 10, 200, -1, CompactionStopStyle.totalSize, false⟩, false, false, 0, 0, 1,
    [1000]⟩

def extC10 : TableExt :=
  ⟨false, fun _ => none, fun _ => ⟨false, []⟩, fun _ => ⟨false, []⟩,
    fun _ _ _ _ _ => false, fun _ => 0, fun _ => []⟩

def stC10 : PickerState := ⟨[], []⟩

theorem c10_no_plan_frame_witness :
    (pickCompaction vC10 optsC10 extC10 helpersC3 (fun _ => false) (fun _ => false)
      (fun _ => false) stC10).2 = stC10 :=
  c10_no_plan_frame vC10 optsC10 extC10 helpersC3 (fun _ => false) (fun _ => false)
    (fun _ => false) stC10 rfl

/-! ### Claim C9: a non-OK iterator status means no plan, and nothing else -/

/-- C9: a map-element iterator reporting a non-OK status after opening makes the
strategy that opened it return no plan: `PickCompositeCompaction` aborts right after
`NewIterator` (lines 1471-1475, reached whenever the target selection settles on a
file list), `PickRangeCompaction` right after `NewMapElementIterator` (lines
1791-1795, reached whenever the guards before it pass); both surface the error only
as the absence of a plan (both are total functions into an optional plan — there is
no other error channel). -/
theorem c9_iterator_failure (v : VersionStorage) (opts : Options) (ext : TableExt)
    (runs : List SortedRun) (lvl : ℕ) (f : FileMeta ℤ) (fs : List (FileMeta ℤ))
    (amp : ℕ) (level : ℕ) (b en : Option ℤ) (fbc : List ℕ) (mc : Bool)
    (hsel : compositeSelLoop v ext runs.reverse (none, [], 0) = (some lvl, f :: fs, amp))
    (hok : (ext.compositeIter f).ok = false)
    (hfbc : fbc ≠ []) (hlf : v.levelFiles level ≠ [])
    (hcm : areFilesInCompaction (v.levelFiles level) = false)
    (hl0 : ¬ (level = 0 ∧ 1 < (v.levelFiles level).length))
    (hrok : (ext.rangeIter (v.levelFiles level)).ok = false) :
    pickCompositeCompaction v opts ext runs = none ∧
      (pickRangeCompaction v opts ext level b en fbc mc).1 = none := by
  constructor
  · unfold pickCompositeCompaction
    by_cases hsa : v.hasSpaceAmp = true
    · rw [if_neg (by simp [hsa])]
      rw [hsel]
      dsimp only
      rw [if_pos (by simp [hok])]
    · rw [if_pos (by simp [hsa])]
  · unfold pickRangeCompaction
    rw [if_neg (by simp [List.isEmpty_iff, hfbc, hlf])]
    rw [if_neg (by simp [hcm])]
    rw [if_neg hl0]
    rw [if_pos (by simp [hrok])]

def fileC9 : FileMeta ℤ := ⟨21, 0, 10, 10, 0, 1, 0, 0, false, false, SstPurpose.essence, []⟩

def vC9 : VersionStorage := ⟨[[], [fileC9]], [], 0, [false, true]⟩

def runsC9 : List SortedRun := [⟨1, none, 10, 10, false, false⟩]

def extC9 : TableExt :=
  ⟨true, fun _ => some 5, fun _ => ⟨false, []⟩, fun _ => ⟨false, []⟩,
    fun _ _ _ _ _ => false, fun _ => 0, fun _ => []⟩

theorem c9_iterator_failure_witness :
    pickCompositeCompaction vC9 optsC10 extC9 runsC9 = none ∧
      (pickRangeCompaction vC9 optsC10 extC9 1 none none [99] false).1 = none :=
  c9_iterator_failure vC9 optsC10 extC9 runsC9 1 fileC9 [] 5 1 none none [99] false
    (by rfl) rfl (by decide) (by decide) rfl (by decide) rfl

/-! ### Claim C1: returned plans and `being_compacted` inputs -/

instance : Inhabited Plan :=
  ⟨⟨[], 0, 0, 0, SstPurpose.essence, 0, false, false, [], CompactionReason.unknown,
    true, false⟩⟩

/-- Some input file of the plan has `being_compacted = true`. -/
def planHasBeingCompactedInput (c : Plan) : Bool :=
  c.inputs.any (fun p => p.2.any (·.beingCompacted))

/-- Every non-L0 level's files agree on `being_compacted`: the data-model invariant
the debug build asserts in `CalculateSortedRuns` (lines 268-274), where without
`allow_trivial_move` the aggregate run flag is read off the level's first file
only. -/
def levelsUniformBC (v : VersionStorage) : Bool :=
  (List.range v.numLevels).all (fun l =>
    l == 0 ||
      (v.levelFiles l).all (fun f => (v.levelFiles l).all
        (fun g => f.beingCompacted == g.beingCompacted)))

def fileC1a : FileMeta ℤ := ⟨31, 0, 10, 10, 0, 1, 7, 8, true, true, SstPurpose.essence, []⟩

def fileC1b : FileMeta ℤ := ⟨32, 0, 10, 10, 2, 3, 5, 6, false, false, SstPurpose.essence, []⟩

def vC1 : VersionStorage := ⟨[[fileC1a, fileC1b]], [], 0, [false]⟩

def optsC1 : Options :=
  ⟨10, ⟨1, 2, 10, 200, -1, CompactionStopStyle.totalSize, false⟩, false, false, 0, 0, 1,
    [1000]⟩

def extC1 : TableExt :=
  ⟨false, fun _ => none, fun _ => ⟨false, []⟩, fun _ => ⟨false, []⟩,
    fun _ _ _ _ _ => false, fun _ => 0, fun _ => []⟩

def helpersC1 : BaseHelpers := ⟨none, fun _ _ => none, fun _ _ => none, fun _ _ => false⟩

def stC1 : PickerState := ⟨[], []⟩

/-- C1 counterexample: a single-level engine whose L0 holds a marked AND
being-compacted newest file followed by a free file, with a trigger of 10 (so no
size-based strategy fires) and no table cache.  `PickCompaction` falls through to the
delete-triggered strategy, whose single-level loop (lines 1150-1157) checks
`marked_for_compaction` but never `being_compacted`, and returns a plan whose inputs
contain the being-compacted file — P1 as claimed is violated. -/
theorem c1_counterexample :
    ((pickCompaction vC1 optsC1 extC1 helpersC1 (fun _ => false) (fun _ => false)
        (fun _ => false) stC1).1.map planHasBeingCompactedInput) = some true := by
  rfl

/-- No file of any input vector is being compacted. -/
def inputsBCFree (inputs : List (ℕ × List (FileMeta ℤ))) : Bool :=
  inputs.all (fun p => p.2.all (fun f => !f.beingCompacted))

lemma planHasBC_false_of_free (c : Plan) (h : inputsBCFree c.inputs = true) :
    planHasBeingCompactedInput c = false := by
  cases hb : planHasBeingCompactedInput c with
  | false => rfl
  | true =>
    exfalso
    simp only [planHasBeingCompactedInput] at hb
    rcases List.any_eq_true.mp hb with ⟨p, hp, hp2⟩
    rcases List.any_eq_true.mp hp2 with ⟨f, hf, hfbc⟩
    simp only [inputsBCFree] at h
    have := List.all_eq_true.mp (List.all_eq_true.mp h p hp) f hf
    simp [hfbc] at this

/-- What a non-being-compacted sorted run guarantees about the files it stands for:
its L0 file (if any) is not being compacted, and for a non-L0 run none of the level's
files is. -/
def runBCFacts (v : VersionStorage) (sr : SortedRun) : Prop :=
  (∀ f, sr.file = some f → f.beingCompacted = false) ∧
    (sr.level ≠ 0 → ∀ f ∈ v.levelFiles sr.level, f.beingCompacted = false)

/-- A run of `CalculateSortedRuns` with `being_compacted = false` stands only for
files that are not being compacted — for non-L0 runs this needs either
`allow_trivial_move` (the flag is the disjunction over the level) or the per-level
uniformity invariant (the flag is the first file's). -/
lemma calculateSortedRuns_run_bc (v : VersionStorage) (opts : Options)
    (hbc : opts.universal.allowTrivialMove = true ∨ levelsUniformBC v = true)
    (sr : SortedRun) (hmem : sr ∈ calculateSortedRuns v opts)
    (hsr : sr.beingCompacted = false) : runBCFacts v sr := by
  rw [calculateSortedRuns] at hmem
  rcases List.mem_append.mp hmem with h | h
  · rcases List.mem_map.mp h with ⟨f, hf, rfl⟩
    refine ⟨fun g hg => ?_, fun h0 => absurd rfl h0⟩
    cases hg
    exact hsr
  · rcases List.mem_filterMap.mp h with ⟨level, hlr, heq⟩
    by_cases h0 : level = 0
    · rw [if_pos h0] at heq; cases heq
    · rw [if_neg h0] at heq
      simp only at heq
      by_cases hpos : 0 < ((v.levelFiles level).map (·.compensatedFileSize)).sum
      · rw [if_pos hpos] at heq
        cases heq
        refine ⟨fun g hg => (by cases hg), fun _ => ?_⟩
        intro f hf
        dsimp only at hsr ⊢
        by_cases hat : opts.universal.allowTrivialMove = true
        · rw [if_pos hat] at hsr
          by_contra hfbc
          have : (v.levelFiles level).any (·.beingCompacted) = true :=
            List.any_eq_true.mpr ⟨f, hf, by simpa using hfbc⟩
          rw [hsr] at this
          cases this
        · rw [if_neg hat] at hsr
          have huni : levelsUniformBC v = true := by
            rcases hbc with h1 | h1
            · exact absurd h1 hat
            · exact h1
          have hne : v.levelFiles level ≠ [] := by
            intro hnil
            rw [hnil] at hpos
            simp at hpos
          obtain ⟨g, gs, hgs⟩ := List.exists_cons_of_ne_nil hne
          rw [hgs] at hsr
          simp only [List.head?_cons, Option.map_some', Option.getD_some] at hsr
          have huni2 := List.all_eq_true.mp huni level hlr
          simp only [Bool.or_eq_true, beq_iff_eq] at huni2
          rcases huni2 with h1 | h1
          · exact absurd h1 h0
          · have := List.all_eq_true.mp (List.all_eq_true.mp h1 g
              (by rw [hgs]; exact List.mem_cons_self _ _)) f hf
            simp only [beq_iff_eq] at this
            rw [← this, hsr]
      · rw [if_neg hpos] at heq
        cases heq

lemma appendFilesAt_bcFree (inputs : List (ℕ × List (FileMeta ℤ))) (i : ℕ)
    (fs : List (FileMeta ℤ)) (hin : inputsBCFree inputs = true)
    (hfs : fs.all (fun f => !f.beingCompacted) = true) :
    inputsBCFree (appendFilesAt inputs i fs) = true := by
  induction inputs generalizing i with
  | nil => simpa [appendFilesAt] using hin
  | cons e rest ih =>
    obtain ⟨l, gs⟩ := e
    simp only [inputsBCFree, List.all_cons] at hin
    cases i with
    | zero =>
      simp only [appendFilesAt, inputsBCFree, List.all_cons, List.all_append]
      simp only [Bool.and_eq_true] at hin ⊢
      exact ⟨⟨hin.1, hfs⟩, hin.2⟩
    | succ j =>
      simp only [appendFilesAt, inputsBCFree, List.all_cons]
      simp only [Bool.and_eq_true] at hin ⊢
      exact ⟨hin.1, ih j hin.2⟩

lemma levelInputsTemplate_bcFree (s c : ℕ) :
    inputsBCFree (levelInputsTemplate s c) = true := by
  rw [inputsBCFree, List.all_eq_true]
  intro p hp
  rcases List.mem_map.mp hp with ⟨i, _, rfl⟩
  rfl

lemma addSortedRunFiles_bcFree (v : VersionStorage) (startLevel : ℕ)
    (inputs : List (ℕ × List (FileMeta ℤ))) (sr : SortedRun)
    (hin : inputsBCFree inputs = true) (hsr : runBCFacts v sr) :
    inputsBCFree (addSortedRunFiles v startLevel inputs sr) = true := by
  rw [addSortedRunFiles]
  by_cases hl : sr.level = 0
  · rw [if_pos hl]
    cases hf : sr.file with
    | none => exact hin
    | some f =>
      exact appendFilesAt_bcFree _ _ _ hin (by simp [hsr.1 f hf])
  · rw [if_neg hl]
    refine appendFilesAt_bcFree _ _ _ hin ?_
    rw [List.all_eq_true]
    intro f hf
    simpa using hsr.2 hl f hf

lemma foldl_addSortedRunFiles_bcFree (v : VersionStorage) (startLevel : ℕ)
    (picked : List SortedRun) :
    ∀ (inputs : List (ℕ × List (FileMeta ℤ))), inputsBCFree inputs = true →
      (∀ sr ∈ picked, runBCFacts v sr) →
      inputsBCFree (picked.foldl (addSortedRunFiles v startLevel) inputs) = true := by
  induction picked with
  | nil => intro inputs hin _; simpa using hin
  | cons sr rest ih =>
    intro inputs hin hp
    rw [List.foldl_cons]
    exact ih _ (addSortedRunFiles_bcFree v startLevel inputs sr hin
        (hp sr (List.mem_cons_self _ _)))
      (fun x hx => hp x (List.mem_cons_of_mem _ hx))

lemma trivialMoveLoop_facts (v : VersionStorage) (st : PickerState) :
    ∀ fuel ol sl ol2, trivialMoveLoop v st fuel ol = some (sl, ol2) →
      sl = 0 ∨ areFilesInCompaction (v.levelFiles sl) = false := by
  intro fuel
  induction fuel with
  | zero => intro ol sl ol2 h; simp [trivialMoveLoop] at h
  | succ n ih =>
    intro ol sl ol2 h
    rw [trivialMoveLoop] at h
    cases hfe : findEmptyLevel v st ol with
    | none => rw [hfe] at h; cases h
    | some l2 =>
      rw [hfe] at h
      dsimp only at h
      by_cases h0 : (findStartLevel v st (l2 - 1)).1 = 0
      · rw [if_pos h0] at h
        left
        cases h
        rfl
      · rw [if_neg h0] at h
        by_cases h1 : (findStartLevel v st (l2 - 1)).2 = true ∧
            ¬ areFilesInCompaction (v.levelFiles (findStartLevel v st (l2 - 1)).1) = true
        · rw [if_pos h1] at h
          cases h
          right
          simpa using h1.2
        · rw [if_neg h1] at h
          exact ih _ _ _ h

/-- Plans of `PickTrivialMoveCompaction` never contain a being-compacted file: the L0
tail file is checked directly (line 1320), a whole start level passed the
`AreFilesInCompaction` guard (line 1310). -/
lemma trivialMove_bcFree (v : VersionStorage) (opts : Options) (st : PickerState)
    (c : Plan) (h : pickTrivialMoveCompaction v opts st = some c) :
    inputsBCFree c.inputs = true := by
  rw [pickTrivialMoveCompaction] at h
  by_cases hat : ¬ opts.universal.allowTrivialMove = true
  · rw [if_pos hat] at h; cases h
  · rw [if_neg hat] at h
    simp only at h
    cases hl : trivialMoveLoop v st (v.numLevels + 1)
      (if opts.allowIngestBehind then v.numLevels - 2 else v.numLevels - 1) with
    | none => rw [hl] at h; cases h
    | some p =>
      obtain ⟨sl, ol⟩ := p
      rw [hl] at h
      dsimp only at h
      by_cases h0 : sl = 0
      · rw [if_pos h0] at h
        cases hlast : (v.levelFiles 0).getLast? with
        | none => rw [hlast] at h; cases h
        | some meta =>
          rw [hlast] at h
          dsimp only at h
          by_cases hmb : meta.beingCompacted = true
          · rw [if_pos hmb] at h; cases h
          · rw [if_neg hmb] at h
            cases h
            simp [inputsBCFree, mkTrivialMovePlan]
            simpa using hmb
      · rw [if_neg h0] at h
        cases h
        rcases trivialMoveLoop_facts v st _ _ _ _ hl with h1 | h1
        · exact absurd h1 h0
        · simp only [inputsBCFree, mkTrivialMovePlan, List.all_cons, List.all_nil,
            Bool.and_true]
          rw [List.all_eq_true]
          intro f hf
          by_contra hfbc
          have : areFilesInCompaction (v.levelFiles sl) = true :=
            List.any_eq_true.mpr ⟨f, hf, by simpa using hfbc⟩
          rw [h1] at this
          cases this

lemma mem_drop_take_getD {α : Type} [Inhabited α] (l : List α) (s n : ℕ) (x : α)
    (hx : x ∈ (l.drop s).take n) : ∃ j, j < n ∧ l.getD (s + j) default = x := by
  rcases List.mem_iff_getElem.mp hx with ⟨j, hj, hget⟩
  have hj1 : j < n := lt_of_lt_of_le hj (by
    rw [List.length_take]
    exact min_le_left _ _)
  have hj2 : j < (l.drop s).length := lt_of_lt_of_le hj (by
    rw [List.length_take]
    exact min_le_right _ _)
  have hj3 : s + j < l.length := by
    rw [List.length_drop] at hj2
    omega
  refine ⟨j, hj1, ?_⟩
  rw [List.getD_eq_getElem l default hj3, ← hget]
  rw [List.getElem_take, List.getElem_drop]

/-- Plans of the lazy grouping strategy never contain a being-compacted file: the
selected group was checked run by run (lines 1948-1974). -/
lemma reduceSortedRuns_bcFree (v : VersionStorage) (opts : Options)
    (cont adopt evt : ℕ → Bool) (score : ℚ) (runs : List SortedRun) (target : ℕ)
    (hruns : ∀ sr ∈ runs, sr.beingCompacted = false → runBCFacts v sr) (c : Plan)
    (h : (pickCompactionToReduceSortedRuns v opts cont adopt evt score runs
      target).1 = some c) :
    inputsBCFree c.inputs = true := by
  simp only [pickCompactionToReduceSortedRuns] at h
  cases hg : selectReduceGroup runs (genSortedRunGroup cont adopt evt
    (runs.map (fun sr => (sr.size : ℚ) / (opts.writeBufferSize : ℚ)))
    (if target = 0 then runs.length else target)) with
  | none => rw [hg] at h; cases h
  | some g =>
    rw [hg] at h
    dsimp only at h
    cases h
    have hfind := List.find?_some hg
    simp only [Bool.and_eq_true, Bool.not_eq_true', decide_eq_true_eq] at hfind
    refine foldl_addSortedRunFiles_bcFree v _ _ _ (levelInputsTemplate_bcFree _ _) ?_
    intro sr hsr
    obtain ⟨j, hj, hgd⟩ := mem_drop_take_getD runs g.start g.count sr hsr
    have hnotbc : sr.beingCompacted = false := by
      have hany := hfind.2
      rw [List.any_eq_false] at hany
      have := hany j (List.mem_range.mpr hj)
      rw [hgd] at this
      simpa using this
    have hmem : sr ∈ runs := List.drop_subset _ _ (List.take_subset _ _ hsr)
    exact hruns sr hmem hnotbc

lemma windowExtend_ge (similar : Bool) (ratio maxFiles : ℕ) :
    ∀ (rest : List SortedRun) (count cand : ℕ),
      count ≤ windowExtend similar ratio maxFiles rest count cand := by
  intro rest
  induction rest with
  | nil => intro c cd; simp [windowExtend]
  | cons succ rest ih =>
    intro c cd
    simp only [windowExtend]
    by_cases h1 : ¬ c < maxFiles
    · rw [if_pos h1]
    · rw [if_neg h1]
      by_cases h2 : succ.beingCompacted = true
      · rw [if_pos h2]
      · rw [if_neg h2]
        by_cases h3 : (cd : ℚ) * (100 + ratio) / 100 < (succ.size : ℚ)
        · rw [if_pos h3]
        · rw [if_neg h3]
          by_cases h4 : similar = true
          · rw [if_pos h4]
            by_cases h5 : (succ.size : ℚ) * (100 + ratio) / 100 < (cd : ℚ)
            · rw [if_pos h5]
            · rw [if_neg h5]
              exact le_trans (Nat.le_succ c) (ih (c + 1) _)
          · rw [if_neg h4]
            exact le_trans (Nat.le_succ c) (ih (c + 1) _)

/-- Every run the window-extension loop walks over is not being compacted. -/
lemma windowExtend_take_bcFree (similar : Bool) (ratio maxFiles : ℕ) :
    ∀ (rest : List SortedRun) (count cand : ℕ),
      ((rest.take (windowExtend similar ratio maxFiles rest count cand - count)).all
        (fun sr => !sr.beingCompacted)) = true := by
  intro rest
  induction rest with
  | nil => intro c cd; simp
  | cons succ rest ih =>
    intro c cd
    simp only [windowExtend]
    by_cases h1 : ¬ c < maxFiles
    · rw [if_pos h1]; simp
    · rw [if_neg h1]
      by_cases h2 : succ.beingCompacted = true
      · rw [if_pos h2]; simp
      · rw [if_neg h2]
        by_cases h3 : (cd : ℚ) * (100 + ratio) / 100 < (succ.size : ℚ)
        · rw [if_pos h3]; simp
        · rw [if_neg h3]
          by_cases h4 : similar = true
          · rw [if_pos h4]
            by_cases h5 : (succ.size : ℚ) * (100 + ratio) / 100 < (cd : ℚ)
            · rw [if_pos h5]; simp
            · rw [if_neg h5]
              have hge := windowExtend_ge similar ratio maxFiles rest (c + 1)
                succ.compensatedFileSize
              have heq : windowExtend similar ratio maxFiles rest (c + 1)
                    succ.compensatedFileSize - c =
                  (windowExtend similar ratio maxFiles rest (c + 1)
                    succ.compensatedFileSize - (c + 1)) + 1 := by omega
              rw [heq, List.take_succ_cons, List.all_cons]
              simp only [Bool.and_eq_true]
              exact ⟨by simpa using h2, ih (c + 1) _⟩
          · rw [if_neg h4]
            have hge := windowExtend_ge similar ratio maxFiles rest (c + 1)
              (cd + succ.compensatedFileSize)
            have heq : windowExtend similar ratio maxFiles rest (c + 1)
                  (cd + succ.compensatedFileSize) - c =
                (windowExtend similar ratio maxFiles rest (c + 1)
                  (cd + succ.compensatedFileSize) - (c + 1)) + 1 := by omega
            rw [heq, List.take_succ_cons, List.all_cons]
            simp only [Bool.and_eq_true]
            exact ⟨by simpa using h2, ih (c + 1) _⟩

lemma oldFindWindow_idx_ge (similar : Bool) (ratio maxFiles minMerge : ℕ) :
    ∀ (runs : List SortedRun) (idx0 idx count : ℕ),
      oldFindWindow similar ratio maxFiles minMerge idx0 runs = some (idx, count) →
      idx0 ≤ idx := by
  intro runs
  induction runs with
  | nil => intro idx0 idx count h; simp [oldFindWindow] at h
  | cons sr rest ih =>
    intro idx0 idx count h
    simp only [oldFindWindow] at h
    split_ifs at h with h1 h2
    · exact le_trans (Nat.le_succ idx0) (ih (idx0 + 1) idx count h)
    · cases h; exact le_refl _
    · exact le_trans (Nat.le_succ idx0) (ih (idx0 + 1) idx count h)

/-- Every run of the window the legacy search settles on is not being compacted. -/
lemma oldFindWindow_bcFree (similar : Bool) (ratio maxFiles minMerge : ℕ) :
    ∀ (runs : List SortedRun) (idx0 idx count : ℕ),
      oldFindWindow similar ratio maxFiles minMerge idx0 runs = some (idx, count) →
      ((runs.drop (idx - idx0)).take count).all (fun sr => !sr.beingCompacted)
        = true := by
  intro runs
  induction runs with
  | nil => intro idx0 idx count h; simp [oldFindWindow] at h
  | cons sr rest ih =>
    intro idx0 idx count h
    simp only [oldFindWindow] at h
    split_ifs at h with h1 h2
    · have hge := oldFindWindow_idx_ge similar ratio maxFiles minMerge rest
        (idx0 + 1) idx count h
      have heq : idx - idx0 = (idx - (idx0 + 1)) + 1 := by omega
      rw [heq, List.drop_succ_cons]
      exact ih (idx0 + 1) idx count h
    · cases h
      simp only [Nat.sub_self, List.drop_zero]
      have hge1 : 1 ≤ windowExtend similar ratio maxFiles rest 1
          sr.compensatedFileSize := windowExtend_ge similar ratio maxFiles rest 1 _
      have heq : windowExtend similar ratio maxFiles rest 1 sr.compensatedFileSize =
          (windowExtend similar ratio maxFiles rest 1 sr.compensatedFileSize - 1)
            + 1 := by omega
      rw [heq, List.take_succ_cons, List.all_cons]
      simp only [Bool.and_eq_true]
      constructor
      · simpa using h1
      · have := windowExtend_take_bcFree similar ratio maxFiles rest 1
          sr.compensatedFileSize
        simpa using this
    · have hge := oldFindWindow_idx_ge similar ratio maxFiles minMerge rest
        (idx0 + 1) idx count h
      have heq : idx - idx0 = (idx - (idx0 + 1)) + 1 := by omega
      rw [heq, List.drop_succ_cons]
      exact ih (idx0 + 1) idx count h

/-- Plans of the legacy ratio strategy never contain a being-compacted file: the
window start is taken after the skip loop and the extension stops at a
being-compacted successor. -/
lemma oldRatio_bcFree (v : VersionStorage) (opts : Options) (score : ℚ)
    (ratio maxF : ℕ) (runs : List SortedRun)
    (hruns : ∀ sr ∈ runs, sr.beingCompacted = false → runBCFacts v sr) (c : Plan)
    (h : pickCompactionToReduceSortedRunsOld v opts score ratio maxF runs = some c) :
    inputsBCFree c.inputs = true := by
  simp only [pickCompactionToReduceSortedRunsOld] at h
  cases hw : oldFindWindow
      (decide (opts.universal.stopStyle = CompactionStopStyle.similarSize)) ratio
      (min opts.universal.maxMergeWidth maxF) (max opts.universal.minMergeWidth 2)
      0 runs with
  | none => rw [hw] at h; cases h
  | some p =>
    obtain ⟨startIndex, cnt⟩ := p
    rw [hw] at h
    dsimp only at h
    by_cases hc1 : cnt ≤ 1
    · rw [if_pos hc1] at h; cases h
    · rw [if_neg hc1] at h
      cases h
      refine foldl_addSortedRunFiles_bcFree v _ _ _ (levelInputsTemplate_bcFree _ _) ?_
      intro sr hsr
      have hfree := oldFindWindow_bcFree _ _ _ _ runs 0 startIndex cnt hw
      rw [Nat.sub_zero] at hfree
      have hnotbc : sr.beingCompacted = false := by
        have := List.all_eq_true.mp hfree sr hsr
        simpa using this
      exact hruns sr (List.drop_subset _ _ (List.take_subset _ _ hsr)) hnotbc

lemma drop_length_sub_one_getLast {α : Type} (l : List α) (x : α)
    (h : l.getLast? = some x) : l.drop (l.length - 1) = [x] := by
  induction l with
  | nil => cases h
  | cons a rest ih =>
    cases hr : rest with
    | nil =>
      rw [hr] at h
      simp only [List.getLast?_singleton, Option.some.injEq] at h
      simp [h]
    | cons b rest2 =>
      rw [hr] at h ih
      rw [List.getLast?_cons_cons] at h
      have := ih h
      simp only [List.length_cons]
      rw [Nat.add_sub_cancel]
      have hlen : rest2.length + 1 = (b :: rest2).length - 1 + 1 := by simp
      rw [show (a :: b :: rest2).drop (rest2.length + 1) =
        (b :: rest2).drop (rest2.length) from rfl]
      rw [show rest2.length = (b :: rest2).length - 1 from by simp]
      exact this

/-- Plans of the SizeAmp strategy never contain a being-compacted file: the picked
window is the non-compacted middle plus the non-compacted bottommost run. -/
lemma sizeAmp_bcFree (v : VersionStorage) (opts : Options) (score : ℚ)
    (runs : List SortedRun)
    (hruns : ∀ sr ∈ runs, sr.beingCompacted = false → runBCFacts v sr) (c : Plan)
    (h : pickCompactionToReduceSizeAmp v opts score runs = some c) :
    inputsBCFree c.inputs = true := by
  simp only [pickCompactionToReduceSizeAmp] at h
  cases hl : runs.getLast? with
  | none => rw [hl] at h; cases h
  | some lastRun =>
    rw [hl] at h
    dsimp only at h
    by_cases hbc : lastRun.beingCompacted = true
    · rw [if_pos hbc] at h; cases h
    · rw [if_neg hbc] at h
      set middle := (runs.take (runs.length - 1)).dropWhile (·.beingCompacted)
        with hmid
      by_cases hm : middle = []
      · rw [if_pos hm] at h; cases h
      · rw [if_neg hm] at h
        by_cases hany : middle.any (·.beingCompacted) = true
        · rw [if_pos hany] at h; cases h
        · rw [if_neg hany] at h
          by_cases hlen : middle.length = 0
          · rw [if_pos hlen] at h; cases h
          · rw [if_neg hlen] at h
            split at h
            · cases h
            · cases h
              have hsplit : runs.take (runs.length - 1) =
                  (runs.take (runs.length - 1)).takeWhile (·.beingCompacted) ++
                    middle := by
                rw [hmid]
                exact (List.takeWhile_append_dropWhile _ _).symm
              have hidx : (runs.take (runs.length - 1)).length - middle.length =
                  ((runs.take (runs.length - 1)).takeWhile
                    (·.beingCompacted)).length := by
                conv_lhs => rw [hsplit]
                rw [List.length_append]
                omega
              have hdropfront : (runs.take (runs.length - 1)).drop
                  ((runs.take (runs.length - 1)).length - middle.length) = middle := by
                rw [hidx]
                set tw := (runs.take (runs.length - 1)).takeWhile (·.beingCompacted)
                  with htw
                rw [hsplit]
                exact List.drop_left tw middle
              have hlast1 : runs.drop (runs.length - 1) = [lastRun] :=
                drop_length_sub_one_getLast runs lastRun hl
              have happ : runs =
                  runs.take (runs.length - 1) ++ runs.drop (runs.length - 1) :=
                (List.take_append_drop _ _).symm
              have hdrop : runs.drop
                  ((runs.take (runs.length - 1)).length - middle.length) =
                  middle ++ [lastRun] := by
                calc runs.drop ((runs.take (runs.length - 1)).length - middle.length)
                    = (runs.take (runs.length - 1) ++
                        runs.drop (runs.length - 1)).drop
                        ((runs.take (runs.length - 1)).length - middle.length) := by
                      rw [← happ]
                  _ = middle ++ [lastRun] := by
                      rw [List.drop_append_eq_append_drop, hdropfront,
                        Nat.sub_eq_zero_of_le (Nat.sub_le _ _), List.drop_zero,
                        hlast1]
              simp only [mkSizeAmpPlan]
              refine foldl_addSortedRunFiles_bcFree v _ _ _
                (levelInputsTemplate_bcFree _ _) ?_
              intro sr hsr
              rw [hdrop] at hsr
              have hmemruns : sr ∈ runs := by
                have : sr ∈ runs.drop
                    ((runs.take (runs.length - 1)).length - middle.length) := by
                  rw [hdrop]; exact hsr
                exact List.drop_subset _ _ this
              rcases List.mem_append.mp hsr with hm1 | hm1
              · refine hruns sr hmemruns ?_
                by_contra hfbc
                exact hany (List.any_eq_true.mpr ⟨sr, hm1, by simpa using hfbc⟩)
              · rcases List.mem_singleton.mp hm1 with rfl
                exact hruns sr hmemruns (by simpa using hbc)

/-- Invariant of the composite target selection: the chosen files are not being
compacted, and a chosen level with cleared files passed the `AreFilesInCompaction`
guard. -/
def selInv (v : VersionStorage) (st : Option ℕ × List (FileMeta ℤ) × ℕ) : Prop :=
  (∀ f ∈ st.2.1, f.beingCompacted = false) ∧
    (∀ lvl, st.1 = some lvl → st.2.1 = [] →
      areFilesInCompaction (v.levelFiles lvl) = false)

lemma compositeConsider_inv (v : VersionStorage) (ext : TableExt) (f : FileMeta ℤ)
    (level : ℕ) (st : Option ℕ × List (FileMeta ℤ) × ℕ)
    (hf : f.beingCompacted = false) (h : selInv v st) :
    selInv v (compositeConsider ext f level st) := by
  rw [compositeConsider]
  cases ext.readAmp f with
  | none => exact h
  | some amp =>
    dsimp only
    by_cases hc : st.2.2 ≤ amp
    · rw [if_pos hc]
      refine ⟨fun g hg => ?_, fun lvl _ hemp => ?_⟩
      · rcases List.mem_singleton.mp hg with rfl
        exact hf
      · cases hemp
    · rw [if_neg hc]
      exact h

lemma compositeSelLoop_inv (v : VersionStorage) (ext : TableExt) :
    ∀ (runs : List SortedRun) (st : Option ℕ × List (FileMeta ℤ) × ℕ),
      selInv v st → selInv v (compositeSelLoop v ext runs st) := by
  intro runs
  induction runs with
  | nil => intro st h; exact h
  | cons sr rest ih =>
    intro st h
    rw [compositeSelLoop]
    by_cases hw : sr.waitReduce = true
    · rw [if_pos hw]; exact ih st h
    · rw [if_neg hw]
      by_cases hl : sr.level ≠ 0
      · rw [if_pos hl]
        by_cases hsa : ¬ v.hasSpaceAmpAt sr.level = true
        · rw [if_pos hsa]; exact ih st h
        · rw [if_neg hsa]
          by_cases hcm : areFilesInCompaction (v.levelFiles sr.level) = true
          · rw [if_pos hcm]; exact ih st h
          · rw [if_neg hcm]
            by_cases hlen : 1 < (v.levelFiles sr.level).length
            · rw [if_pos hlen]
              refine ⟨fun g hg => (by cases hg), fun lvl hlvl _ => ?_⟩
              cases hlvl
              simpa using hcm
            · rw [if_neg hlen]
              cases hh : (v.levelFiles sr.level).head? with
              | none => exact ih st h
              | some f =>
                refine ih _ (compositeConsider_inv v ext f sr.level st ?_ h)
                have hfm : f ∈ v.levelFiles sr.level := by
                  cases hfs : v.levelFiles sr.level with
                  | nil => rw [hfs] at hh; cases hh
                  | cons a rest2 =>
                    rw [hfs] at hh
                    simp only [List.head?_cons, Option.some.injEq] at hh
                    rw [← hh]
                    exact List.mem_cons_self _ _
                by_contra hfbc
                exact hcm (List.any_eq_true.mpr ⟨f, hfm, by simpa using hfbc⟩)
      · rw [if_neg hl]
        cases hf : sr.file with
        | none => exact ih st h
        | some f =>
          dsimp only
          by_cases hfb : f.beingCompacted = true ∨ ¬ f.purpose = SstPurpose.mapSst
          · rw [if_pos hfb]; exact ih st h
          · rw [if_neg hfb]
            refine ih _ (compositeConsider_inv v ext f sr.level st ?_ h)
            rcases not_or.mp hfb with ⟨h1, _⟩
            simpa using h1

/-- Plans of `PickCompositeCompaction` never contain a being-compacted file: the
selected single file was checked (L0) or belongs to a level that passed
`AreFilesInCompaction` (non-L0), and a whole-level input passed that guard before the
multi-file break. -/
lemma composite_bcFree (v : VersionStorage) (opts : Options) (ext : TableExt)
    (runs : List SortedRun) (c : Plan)
    (h : pickCompositeCompaction v opts ext runs = some c) :
    inputsBCFree c.inputs = true := by
  rw [pickCompositeCompaction] at h
  by_cases hsa : ¬ v.hasSpaceAmp = true
  · rw [if_pos hsa] at h; cases h
  · rw [if_neg hsa] at h
    have hinv := compositeSelLoop_inv v ext runs.reverse (none, [], 0)
      ⟨fun g hg => (by cases hg), fun lvl hlvl _ => (by cases hlvl)⟩
    cases hsel : compositeSelLoop v ext runs.reverse (none, [], 0) with
    | mk lvlO p =>
      obtain ⟨selFiles, amp⟩ := p
      rw [hsel] at h hinv
      cases lvlO with
      | none => cases h
      | some lvl =>
        dsimp only at h
        have hfree : selFiles.all (fun f => !f.beingCompacted) = true := by
          rw [List.all_eq_true]
          intro f hf
          simpa using hinv.1 f hf
        cases hsf : selFiles with
        | nil =>
          rw [hsf] at h
          dsimp only at h
          cases h
          have hlvlfree := hinv.2 lvl rfl (by rw [hsf])
          simp only [inputsBCFree, newCompositePlan, List.all_cons, List.all_nil,
            Bool.and_true]
          rw [List.all_eq_true]
          intro f hf
          by_contra hfbc
          have : areFilesInCompaction (v.levelFiles lvl) = true :=
            List.any_eq_true.mpr ⟨f, hf, by simpa using hfbc⟩
          rw [hlvlfree] at this
          cases this
        | cons f fs =>
          rw [hsf] at h hfree
          dsimp only at h
          have hgoal : ∀ purpose maxSub ranges,
              inputsBCFree (newCompositePlan opts lvl (f :: fs) purpose maxSub
                ranges).inputs = true := by
            intro purpose maxSub ranges
            simp only [inputsBCFree, newCompositePlan, List.all_cons, List.all_nil,
              Bool.and_true]
            exact hfree
          by_cases hio : ¬ (ext.compositeIter f).ok = true
          · rw [if_pos hio] at h; cases h
          · rw [if_neg hio] at h
            cases hp1 : compositePass1 v ext opts.maxSubcompactions f.largest
              (ext.compositeIter f).elems false default [] with
            | none => rw [hp1] at h; cases h
            | some r1 =>
              rw [hp1] at h
              dsimp only at h
              by_cases hr1 : ¬ r1.isEmpty = true
              · rw [if_pos hr1] at h; cases h; exact hgoal _ _ _
              · rw [if_neg hr1] at h
                by_cases hdec : ((ext.compositeIter f).elems.any
                    (fun e => !e.decodeOk)) = true
                · rw [if_pos hdec] at h; cases h
                · rw [if_neg hdec] at h
                  by_cases hr2 : ¬ (ext.pass2Ranges
                      (ext.compositeIter f).elems).isEmpty = true
                  · rw [if_pos hr2] at h; cases h; exact hgoal _ _ _
                  · rw [if_neg hr2] at h
                    by_cases hr3 : ¬ (compositePass3 v ext opts.maxSubcompactions
                        f.largest (ext.compositeIter f).elems false default
                        []).isEmpty = true
                    · rw [if_pos hr3] at h; cases h; exact hgoal _ _ _
                    · rw [if_neg hr3] at h
                      by_cases hlvl0 : lvl ≠ 0
                      · rw [if_pos hlvl0] at h; cases h; exact hgoal _ _ _
                      · rw [if_neg hlvl0] at h; cases h

/-- Every plan of `PickDeleteTriggeredCompaction` has reason
`kFilesMarkedForCompaction`. -/
lemma deleteTriggered_reason (v : VersionStorage) (opts : Options)
    (helpers : BaseHelpers) (score : ℚ) (c : Plan)
    (h : pickDeleteTriggeredCompaction v opts helpers score = some c) :
    c.reason = CompactionReason.filesMarkedForCompaction := by
  simp only [pickDeleteTriggeredCompaction] at h
  repeat'
    first
    | (cases h <;> rfl)
    | split at h

/-- Plans of the strategy-selection block never contain a being-compacted file. -/
lemma strategies_bcFree (v : VersionStorage) (opts : Options) (ext : TableExt)
    (cont adopt evt : ℕ → Bool) (st : PickerState) (score : ℚ)
    (runs0 : List SortedRun)
    (hruns : ∀ sr ∈ runs0, sr.beingCompacted = false → runBCFacts v sr) (c : Plan)
    (h : (pickCompactionStrategies v opts ext cont adopt evt st score runs0).1
      = some c) :
    inputsBCFree c.inputs = true := by
  simp only [pickCompactionStrategies] at h
  split at h
  · split at h
    · -- lazy
      by_cases hm : (st.inProgress.any (fun x => x.purpose == SstPurpose.mapSst))
          = true
      · rw [if_pos hm] at h
        split at h
        · exact reduceSortedRuns_bcFree v opts cont adopt evt score runs0 _ hruns c h
        · dsimp only at h; cases h
      · rw [if_neg hm] at h
        split at h
        · exact reduceSortedRuns_bcFree v opts cont adopt evt score runs0 _ hruns c h
        · dsimp only at h
          exact trivialMove_bcFree v opts st c h
    · -- non-lazy
      cases hsa : pickCompactionToReduceSizeAmp v opts score runs0 with
      | some c1 =>
        rw [hsa] at h
        dsimp only at h
        cases h
        exact sizeAmp_bcFree v opts score runs0 hruns _ hsa
      | none =>
        rw [hsa] at h
        dsimp only at h
        cases hold : pickCompactionToReduceSortedRunsOld v opts score
            opts.universal.sizeRatio U32MAX runs0 with
        | some c1 =>
          rw [hold] at h
          dsimp only at h
          cases h
          exact oldRatio_bcFree v opts score _ _ runs0 hruns _ hold
        | none =>
          rw [hold] at h
          dsimp only at h
          split at h
          · dsimp only at h
            exact oldRatio_bcFree v opts score _ _ runs0 hruns _ h
          · dsimp only at h; cases h
  · dsimp only at h; cases h

/-- Every plan `PickCompaction` settles on is, up to the trivial-move marking (which
changes neither inputs nor reason), a plan of the strategy block, of the composite
fallback, or of the delete-triggered fallback. -/
lemma chosen_source (v : VersionStorage) (opts : Options) (ext : TableExt)
    (helpers : BaseHelpers) (cont adopt evt : ℕ → Bool) (st : PickerState) (c : Plan)
    (h : pickCompactionChosen v opts ext helpers cont adopt evt st = some c) :
    ∃ c0 : Plan, c.inputs = c0.inputs ∧ c.reason = c0.reason ∧
      ((pickCompactionStrategies v opts ext cont adopt evt st v.compactionScoreL0
          (calculateSortedRuns v opts)).1 = some c0 ∨
        pickCompositeCompaction v opts ext
          (pickCompactionStrategies v opts ext cont adopt evt st v.compactionScoreL0
            (calculateSortedRuns v opts)).2 = some c0 ∨
        pickDeleteTriggeredCompaction v opts helpers v.compactionScoreL0
          = some c0) := by
  simp only [pickCompactionChosen] at h
  split at h
  · cases h
  · cases hs : (pickCompactionStrategies v opts ext cont adopt evt st
        v.compactionScoreL0 (calculateSortedRuns v opts)).1 with
    | some c0 =>
      rw [hs] at h
      dsimp only at h
      have hc := Option.some.inj h
      refine ⟨c0, ?_, ?_, Or.inl rfl⟩
      · rw [← hc]; split_ifs <;> rfl
      · rw [← hc]; split_ifs <;> rfl
    | none =>
      rw [hs] at h
      dsimp only at h
      by_cases htc : ext.tableCachePresent = true
      · rw [if_pos htc] at h
        cases hcc : pickCompositeCompaction v opts ext
            (pickCompactionStrategies v opts ext cont adopt evt st
              v.compactionScoreL0 (calculateSortedRuns v opts)).2 with
        | some c0 =>
          rw [hcc] at h
          dsimp only at h
          have hc := Option.some.inj h
          refine ⟨c0, ?_, ?_, Or.inr (Or.inl rfl)⟩
          · rw [← hc]; split_ifs <;> rfl
          · rw [← hc]; split_ifs <;> rfl
        | none =>
          rw [hcc] at h
          dsimp only at h
          cases hdt : pickDeleteTriggeredCompaction v opts helpers
              v.compactionScoreL0 with
          | some c0 =>
            rw [hdt] at h
            dsimp only at h
            have hc := Option.some.inj h
            refine ⟨c0, ?_, ?_, Or.inr (Or.inr rfl)⟩
            · rw [← hc]; split_ifs <;> rfl
            · rw [← hc]; split_ifs <;> rfl
          | none => rw [hdt] at h; cases h
      · rw [if_neg htc] at h
        dsimp only at h
        cases hdt : pickDeleteTriggeredCompaction v opts helpers
            v.compactionScoreL0 with
        | some c0 =>
          rw [hdt] at h
          dsimp only at h
          have hc := Option.some.inj h
          refine ⟨c0, ?_, ?_, Or.inr (Or.inr rfl)⟩
          · rw [← hc]; split_ifs <;> rfl
          · rw [← hc]; split_ifs <;> rfl
        | none => rw [hdt] at h; cases h

/-- C1 amended: every plan `PickCompaction` returns under a strategy OTHER than the
delete-triggered one (reason `kFilesMarkedForCompaction`) has no being-compacted
input file, provided the non-L0 run flags are faithful: `allow_trivial_move` is on
(the aggregate flag is the disjunction over the level) or every non-L0 level's files
agree on `being_compacted` (the flag is read off the first file).  The
delete-triggered strategy itself violates the claimed P1 (see the counterexample). -/
theorem c1_amended (v : VersionStorage) (opts : Options) (ext : TableExt)
    (helpers : BaseHelpers) (cont adopt evt : ℕ → Bool) (st : PickerState)
    (hbc : opts.universal.allowTrivialMove = true ∨ levelsUniformBC v = true)
    (c : Plan)
    (hpick : (pickCompaction v opts ext helpers cont adopt evt st).1 = some c)
    (hreason : c.reason ≠ CompactionReason.filesMarkedForCompaction) :
    planHasBeingCompactedInput c = false := by
  have hch : pickCompactionChosen v opts ext helpers cont adopt evt st = some c := by
    unfold pickCompaction at hpick
    cases hc : pickCompactionChosen v opts ext helpers cont adopt evt st with
    | none => rw [hc] at hpick; cases hpick
    | some c0 =>
      rw [hc] at hpick
      dsimp only at hpick
      exact hpick
  obtain ⟨c0, hin, hrs, hsrc⟩ :=
    chosen_source v opts ext helpers cont adopt evt st c hch
  have hruns : ∀ sr ∈ calculateSortedRuns v opts, sr.beingCompacted = false →
      runBCFacts v sr :=
    fun sr hm hb => calculateSortedRuns_run_bc v opts hbc sr hm hb
  have hfree : inputsBCFree c0.inputs = true := by
    rcases hsrc with h1 | h1 | h1
    · exact strategies_bcFree v opts ext cont adopt evt st _ _ hruns c0 h1
    · exact composite_bcFree v opts ext _ c0 h1
    · exact absurd (hrs.trans (deleteTriggered_reason v opts helpers _ c0 h1))
        hreason
  refine planHasBC_false_of_free c ?_
  rw [hin]
  exact hfree

def fileC1w0 : FileMeta ℤ := ⟨41, 0, 10, 10, 0, 1, 3, 4, false, false, SstPurpose.essence, []⟩

def fileC1w1 : FileMeta ℤ := ⟨42, 0, 10, 10, 2, 3, 1, 2, false, false, SstPurpose.essence, []⟩

def fileC1w2 : FileMeta ℤ := ⟨43, 0, 20, 20, 0, 5, 0, 0, false, false, SstPurpose.essence, []⟩

def vC1w : VersionStorage := ⟨[[fileC1w0, fileC1w1], [fileC1w2]], [], 0, [false, false]⟩

def optsC1w : Options :=
  ⟨2, ⟨1, 2, 10, 100, -1, CompactionStopStyle.totalSize, false⟩, false, false, 0, 0, 1,
    [1000]⟩

/-- C1 amended witness: a non-lazy pick with three non-compacting runs and a trigger
of 2 goes through the SizeAmp strategy (reason `kUniversalSizeAmplification`); the
amended theorem applies and the returned plan's inputs are free of being-compacted
files. -/
theorem c1_amended_witness :
    planHasBeingCompactedInput
      (((pickCompaction vC1w optsC1w extC1 helpersC1 (fun _ => false)
        (fun _ => false) (fun _ => false) stC1).1).getD default) = false :=
  c1_amended vC1w optsC1w extC1 helpersC1 (fun _ => false) (fun _ => false)
    (fun _ => false) stC1 (Or.inr (by decide))
    (((pickCompaction vC1w optsC1w extC1 helpersC1 (fun _ => false)
      (fun _ => false) (fun _ => false) stC1).1).getD default)
    (by rfl) (by decide)

end UCP
